import Mathlib

/-!
Verification of the Hybrid Retrieval and Reference Resolution Engine
(backend/app/query_context.py, retrieval.py, chat.py, db.py, config.py).

Modelling conventions for the shallow embedding:
* Python strings are `List Char` (converted from Lean `String` literals);
  scores are exact rationals `ℚ` (the code uses floats only for simple
  arithmetic: sums, `1/(k+r)` fractions, `max`; no rounding behaviour is
  relevant to the claims).
* Python `re` patterns of the source are compiled by hand into scanning
  matchers.  Each pattern used by the source is a sequence of literal
  alternations, `\s*`/`\s+` gaps and bounded greedy digit groups.  For these
  patterns greedy matching without backtracking coincides with Python's
  backtracking semantics: the alternation branches are pairwise
  prefix-incompatible, and whenever a digit group would backtrack the next
  pattern element would have to match a digit, which no whitespace class or
  literal branch of these patterns can.  Leftmost search is modelled by
  trying the matcher on every suffix, leftmost first, as `re.search` does.
* `\d` and `int()` are modelled over ASCII, Devanagari and Gujarati decimal
  digits (the scripts handled by the code's own `_normalize_digits`);
  `str.lower` is modelled as ASCII lowering, and whitespace as ASCII
  whitespace - the corpus-relevant scripts are unaffected by either.
* Unicode NFKC normalisation (`unicodedata.normalize("NFKC", ...)`) is kept
  abstract: the parser is parameterised over an arbitrary `nfkc` function,
  and concrete evaluations instantiate it with the identity, which is what
  NFKC is on the concrete (already normalised) inputs used.
* Database and LLM calls are oracles: functions receive the rows a call
  would return as an explicit argument.
-/

/-! ## Character and string utilities -/

def lowerL (s : List Char) : List Char := s.map Char.toLower

def wsChar (c : Char) : Bool :=
  c = ' ' || c = '\t' || c = '\n' || c = '\r' || c.val = 11 || c.val = 12

/-- Decimal digit value of a character: ASCII, Devanagari (U+0966..) or
Gujarati (U+0AE6..) digits, the digit classes handled by the source. -/
def pyDigitVal (c : Char) : Option ℕ :=
  if '0' ≤ c && c ≤ '9' then some (c.toNat - '0'.toNat)
  else if 0x966 ≤ c.val && c.val ≤ 0x96F then some (c.toNat - 0x966)
  else if 0xAE6 ≤ c.val && c.val ≤ 0xAEF then some (c.toNat - 0xAE6)
  else none

def isPyDigit (c : Char) : Bool := (pyDigitVal c).isSome

/-- `_normalize_digits` of query_context.py: translate Devanagari and
Gujarati digits to ASCII digits; other characters unchanged. -/
def normalizeDigitChar (c : Char) : Char :=
  if 0x966 ≤ c.val && c.val ≤ 0x96F then Char.ofNat ('0'.toNat + (c.toNat - 0x966))
  else if 0xAE6 ≤ c.val && c.val ≤ 0xAEF then Char.ofNat ('0'.toNat + (c.toNat - 0xAE6))
  else c

def normalize_digits (s : List Char) : List Char := s.map normalizeDigitChar

/-- Python `str.strip()` (ASCII whitespace model). -/
def stripL (s : List Char) : List Char :=
  ((s.dropWhile wsChar).reverse.dropWhile wsChar).reverse

/-- Python substring test `needle in hay`. -/
def containsSub (hay needle : List Char) : Bool :=
  if needle.isPrefixOf hay then true
  else
    match hay with
    | [] => false
    | _ :: t => containsSub t needle

/-- Python `str.replace(pat, repl)`: leftmost non-overlapping replacement.
Only called with non-empty `pat` by the source. -/
def replaceAll (s pat repl : List Char) : List Char :=
  match s with
  | [] => []
  | c :: rest =>
    if h : pat ≠ [] ∧ pat.isPrefixOf (c :: rest) then
      repl ++ replaceAll ((c :: rest).drop pat.length) pat repl
    else
      c :: replaceAll rest pat repl
termination_by s.length
decreasing_by
  · simp only [List.length_drop]
    have hlen : 1 ≤ pat.length := by
      cases pat with
      | nil => exact absurd rfl h.1
      | cons a t => simp
    simp only [List.length_cons]
    omega
  · simp

/-- Leading digit run, capped at `maxLen` characters (regex `\d{1,maxLen}`,
greedy; see the file comment for why greediness needs no backtracking in the
patterns of the source). Fails on zero digits. -/
def matchDigits (maxLen : ℕ) (s : List Char) : Option (List ℕ × List Char) :=
  let ds := (s.takeWhile isPyDigit).take maxLen
  if ds = [] then none
  else some (ds.filterMap pyDigitVal, s.drop ds.length)

/-- Decimal value of a digit list (Python `int()` on the captured group). -/
def digitsToNat (ds : List ℕ) : ℕ := ds.foldl (fun acc d => 10 * acc + d) 0

/-- Literal alternation: first branch that is a prefix of `s` is consumed.
All alternations of the source are pairwise prefix-incompatible at any one
position, so branch order cannot matter. -/
def matchAlt (lits : List (List Char)) (s : List Char) : Option (List Char) :=
  match lits with
  | [] => none
  | l :: rest => if l.isPrefixOf s then some (s.drop l.length) else matchAlt rest s

def skipWs (s : List Char) : List Char := s.dropWhile wsChar

/-- `\s+`: at least one whitespace character, then skip the run. -/
def matchWs1 (s : List Char) : Option (List Char) :=
  match s with
  | [] => none
  | c :: rest => if wsChar c then some (rest.dropWhile wsChar) else none

/-- Leftmost search: try the matcher at every suffix, leftmost first
(`re.search` semantics). -/
def scanFirst (f : List Char → Option α) (s : List Char) : Option α :=
  match f s with
  | some r => some r
  | none =>
    match s with
    | [] => none
    | _ :: t => scanFirst f t

/-! ## query_context.py: vocabulary -/

def prakranWordAlts : List (List Char) :=
  ["prakran", "prakaran", "प्रकरण", "पकरण", "પ્રકરણ", "પકરણ"].map String.toList

def chopaiWordAlts : List (List Char) :=
  ["chopai", "chaupai", "ચોપાઈ", "ચોપાઇ", "चौपाई", "चोपाई"].map String.toList

def summaryHints : List (List Char) :=
  ["summary", "summarize", "explain", "explanation", "samjhao", "samjhaao",
   "saransh", "saar", "kya", "bataya", "shu", "kahyu", "kahe"].map String.toList

def countHints : List (List Char) :=
  ["count", "howmany", "kitni", "ketli", "ketla", "number"].map String.toList

def followupHints : List (List Char) :=
  ["usme", "isme", "tema", "ae", "te", "that", "this", "same", "upar", "uparnu"].map String.toList

def rangeConnectorAlts : List (List Char) :=
  ["to", "se", "thi", "થી", "से", "-", "–", "—"].map String.toList

def ordinalAlts : List (List Char) :=
  ["th", "st", "nd", "rd"].map String.toList

/-- Any alternation word occurs as a substring (`re.search` on a bare
alternation of literals). -/
def containsAnyWord (s : List Char) (words : List (List Char)) : Bool :=
  words.any fun w => containsSub s w

/-! ## query_context.py: data model -/

structure SessionContextState where
  granth_name : Option String := none
  prakran_number : Option ℕ := none
  prakran_range_start : Option ℕ := none
  prakran_range_end : Option ℕ := none
  chopai_number : Option ℕ := none
deriving DecidableEq, Repr

structure QueryContext where
  intent : String
  granth_name : Option String
  prakran_number : Option ℕ
  prakran_range_start : Option ℕ
  prakran_range_end : Option ℕ
  chopai_number : Option ℕ
  requires_summary : Bool
  requires_count : Bool
  context_carried : Bool
  notes : List String
deriving DecidableEq, Repr

def QueryContext.has_prakran_constraint (q : QueryContext) : Bool :=
  q.prakran_number.isSome ||
    (q.prakran_range_start.isSome && q.prakran_range_end.isSome)

def QueryContext.has_reference_constraint (q : QueryContext) : Bool :=
  q.has_prakran_constraint || q.chopai_number.isSome || q.granth_name.isSome

def QueryContext.prakran_numbers (q : QueryContext) (max_span : ℕ := 20) : List ℕ :=
  match q.prakran_number with
  | some n => [n]
  | none =>
    match q.prakran_range_start, q.prakran_range_end with
    | some s, some e =>
      let start := min s e
      let stop := max s e
      let stop := if stop - start > max_span then start + max_span else stop
      List.range (stop + 1 - start) |>.map (start + ·)
    | _, _ => []

/-! ## query_context.py: extraction -/

/-- `_normalize`: NFKC (abstract) then strip. -/
def pyNormalize (nfkc : List Char → List Char) (s : List Char) : List Char :=
  stripL (nfkc s)

/-- `_norm_key`: normalise, digit-fold, lower, keep `[a-z0-9]`, Devanagari
U+0900-097F and Gujarati U+0A80-0AFF. -/
def norm_key (nfkc : List Char → List Char) (s : List Char) : List Char :=
  (lowerL (normalize_digits (pyNormalize nfkc s))).filter fun c =>
    ('a' ≤ c && c ≤ 'z') || ('0' ≤ c && c ≤ '9') ||
      (0x900 ≤ c.val && c.val ≤ 0x97F) || (0xA80 ≤ c.val && c.val ≤ 0xAFF)

/-- `_has_any_token`. -/
def hasAnyToken (nfkc : List Char → List Char) (s : List Char) (terms : List (List Char)) : Bool :=
  terms.any fun t => containsSub (norm_key nfkc s) t

/-- `_mentions_followup`. -/
def mentionsFollowup (nfkc : List Char → List Char) (s : List Char) : Bool :=
  followupHints.any fun t => containsSub (norm_key nfkc s) t

/-- Forward range pattern `PRAKRAN\s*(\d{1,3})\s*(to|se|thi|થી|से|[-–—])\s*(\d{1,3})`
applied at one position. -/
def matchRangeFwdAt (s : List Char) : Option (ℕ × ℕ) := do
  let s ← matchAlt prakranWordAlts s
  let (d1, s) ← matchDigits 3 (skipWs s)
  let s ← matchAlt rangeConnectorAlts (skipWs s)
  let (d2, _) ← matchDigits 3 (skipWs s)
  pure (digitsToNat d1, digitsToNat d2)

/-- Reversed range pattern `(\d{1,3})\s*conn\s*(\d{1,3})\s*PRAKRAN` at one
position. -/
def matchRangeRevAt (s : List Char) : Option (ℕ × ℕ) := do
  let (d1, s) ← matchDigits 3 s
  let s ← matchAlt rangeConnectorAlts (skipWs s)
  let (d2, s) ← matchDigits 3 (skipWs s)
  let _ ← matchAlt prakranWordAlts (skipWs s)
  pure (digitsToNat d1, digitsToNat d2)

/-- `_extract_prakran_range`. -/
def extract_prakran_range (text : List Char) : Option (ℕ × ℕ) :=
  let src := normalize_digits text
  match scanFirst matchRangeFwdAt src with
  | some r => some r
  | none => scanFirst matchRangeRevAt src

/-- `_extract_single_prakran_number` (`PRAKRAN\s*(\d{1,3})`). -/
def extract_single_prakran_number (text : List Char) : Option ℕ :=
  scanFirst
    (fun s => do
      let s ← matchAlt prakranWordAlts s
      let (d, _) ← matchDigits 3 (skipWs s)
      pure (digitsToNat d))
    (normalize_digits text)

/-- `_extract_chopai_number`: direct `CHOPAI\s*(\d{1,4})`, else reversed
`(\d{1,4})\s*(?:th|st|nd|rd)?\s*CHOPAI`.  The optional ordinal commits when
a branch prefix-matches; no chopai word or whitespace begins with an
ordinal's first letter, so skipping could not succeed where committing
fails. -/
def extract_chopai_number (text : List Char) : Option ℕ :=
  let src := normalize_digits text
  let direct := scanFirst
    (fun s => do
      let s ← matchAlt chopaiWordAlts s
      let (d, _) ← matchDigits 4 (skipWs s)
      pure (digitsToNat d))
    src
  match direct with
  | some n => some n
  | none =>
    scanFirst
      (fun s => do
        let (d, s) ← matchDigits 4 s
        let s := skipWs s
        let s := match matchAlt ordinalAlts s with
          | some rest => rest
          | none => s
        let _ ← matchAlt chopaiWordAlts (skipWs s)
        pure (digitsToNat d))
      src

/-- `_extract_first_number` (`(\d{1,4})`). -/
def extract_first_number (text : List Char) : Option ℕ :=
  scanFirst (fun s => (matchDigits 4 s).map fun p => digitsToNat p.1) text

/-! ## query_context.py: granth detection -/

/-- `re.sub(r"([a-z])([A-Z])", r"\1 \2", raw)`: insert a space between each
non-overlapping lowercase/uppercase ASCII pair. -/
def deCamel : List Char → List Char
  | [] => []
  | [c] => [c]
  | c1 :: c2 :: rest =>
    if ('a' ≤ c1 && c1 ≤ 'z') && ('A' ≤ c2 && c2 ≤ 'Z') then
      c1 :: ' ' :: c2 :: deCamel rest
    else
      c1 :: deCamel (c2 :: rest)

def granthSynonymTable : List (List Char × List (List Char)) :=
  [(("singaar" : String).toList,
    ["singar", "sringar", "shringar", "श्रृंगार", "शृंगार", "सिंगार",
     "श्रीसिंगार", "श्री सिंगार", "સિંગાર", "શૃંગાર"].map String.toList),
   (("kirantan" : String).toList, ["kirtan", "kiratan", "कीर्तन", "કીર્તન"].map String.toList),
   (("prakash" : String).toList, ["prkash", "prakas", "प्रकाश", "પ્રકાશ"].map String.toList),
   (("ras" : String).toList, ["raas", "ras", "रास", "રાસ"].map String.toList)]

/-- `_granth_aliases`, as a list in construction order (the source builds a
Python set; only membership matters downstream, see `detect_granth`). -/
def granth_aliases (nfkc : List Char → List Char) (granth : List Char) : List (List Char) :=
  let raw := stripL granth
  let key := norm_key nfkc raw
  let base := replaceAll (replaceAll key ("shri" : String).toList []) ("sri" : String).toList []
  let synonyms := (granthSynonymTable.filter fun p => containsSub key p.1).flatMap
    fun p => p.2.map (norm_key nfkc)
  ([key, norm_key nfkc (deCamel raw), base,
    replaceAll base ("aa" : String).toList ("a" : String).toList] ++ synonyms).filter
    fun a => a ≠ []

/-- `_detect_granth`.  The source records the length of the first matching
alias in Python-set iteration order (unspecified); we model the
deterministic refinement that records the longest matching alias, which is
also what the final longest-alias sort prefers.  No claim depends on the
tie behaviour. -/
def detect_granth (nfkc : List Char → List Char) (text : List Char) (granths : List String) :
    Option String :=
  if granths = [] then none
  else
    let flat := norm_key nfkc text
    if flat = [] then none
    else
      let candidates := granths.filterMap fun granth =>
        let lens := (granth_aliases nfkc granth.toList).filterMap fun a =>
          if containsSub flat a then some a.length else none
        match lens.max? with
        | some len => some (len, granth)
        | none => none
      match candidates.insertionSort (fun a b => b.1 ≤ a.1) with
      | [] => none
      | c :: _ => some c.2

/-! ## query_context.py: parse_query_context -/

def optTruthy : Option String → Bool
  | some s => s ≠ ""
  | none => false

/-- `parse_query_context(message, granths, prior, filter_granth,
filter_prakran)`, parameterised over the NFKC oracle. -/
def parse_query_context (nfkc : List Char → List Char) (message : String)
    (granths : List String) (prior : SessionContextState)
    (filter_granth : Option String := none) (filter_prakran : Option String := none) :
    QueryContext :=
  let text := pyNormalize nfkc message.toList
  let lowered := lowerL text
  let detected := detect_granth nfkc message.toList granths
  let fg : Option String :=
    match filter_granth with
    | some s => let t := stripL s.toList; if t = [] then none else some (String.mk t)
    | none => none
  let granth_name0 := match fg with | some g => some g | none => detected
  let prakran_range0 := extract_prakran_range lowered
  let prakran_number0 :=
    if prakran_range0.isNone then extract_single_prakran_number lowered else none
  let chopai_number := extract_chopai_number lowered
  let filter_prakran_number :=
    extract_first_number (normalize_digits (filter_prakran.getD "").toList)
  let prakran_number1 :=
    if filter_prakran_number.isSome && prakran_number0.isNone && prakran_range0.isNone then
      filter_prakran_number
    else prakran_number0
  let summary_hint := hasAnyToken nfkc lowered summaryHints || prakran_range0.isSome
  let count_hint := hasAnyToken nfkc lowered countHints && containsAnyWord lowered chopaiWordAlts
  let asks_chopai := containsAnyWord lowered chopaiWordAlts
  let asks_prakran := containsAnyWord lowered prakranWordAlts
  let intent :=
    if count_hint then "count_chopai"
    else if chopai_number.isSome && (asks_chopai || asks_prakran) then "specific_chopai"
    else if prakran_range0.isSome then "prakran_range_summary"
    else if prakran_number1.isSome && summary_hint then "prakran_summary"
    else "general_qa"
  let should_carry := asks_prakran || asks_chopai || mentionsFollowup nfkc lowered
  let carryG := should_carry && granth_name0.isNone && optTruthy prior.granth_name
  let granth_name := if carryG then prior.granth_name else granth_name0
  let carryN := should_carry && prakran_number1.isNone && prakran_range0.isNone &&
    prior.prakran_number.isSome
  let prakran_number := if carryN then prior.prakran_number else prakran_number1
  let carryR := should_carry && prakran_range0.isNone &&
    prior.prakran_range_start.isSome && prior.prakran_range_end.isSome &&
    asks_prakran && mentionsFollowup nfkc lowered
  let prakran_range :=
    if carryR then
      match prior.prakran_range_start, prior.prakran_range_end with
      | some a, some b => some (a, b)
      | _, _ => prakran_range0
    else prakran_range0
  let carried := carryG || carryN || carryR
  let notes :=
    (if carried then ["Used previous conversation context for missing references."] else []) ++
      (match fg with
       | some g => ["Applied granth filter: " ++ g ++ "."]
       | none => []) ++
      (match filter_prakran with
       | some p => if p ≠ "" then ["Applied prakran filter: " ++ p ++ "."] else []
       | none => [])
  { intent := intent
    granth_name := granth_name
    prakran_number := prakran_number
    prakran_range_start := prakran_range.map Prod.fst
    prakran_range_end := prakran_range.map Prod.snd
    chopai_number := chopai_number
    requires_summary := summary_hint ||
      (intent = "prakran_summary" || intent = "prakran_range_summary")
    requires_count := count_hint
    context_carried := carried
    notes := notes }

/-- `next_session_context(prior, current)`. -/
def next_session_context (prior : SessionContextState) (current : QueryContext) :
    SessionContextState :=
  { granth_name := if optTruthy current.granth_name then current.granth_name else prior.granth_name
    prakran_number := current.prakran_number <|> prior.prakran_number
    prakran_range_start := current.prakran_range_start <|> prior.prakran_range_start
    prakran_range_end := current.prakran_range_end <|> prior.prakran_range_end
    chopai_number := current.chopai_number <|> prior.chopai_number }

/-! ## db.py: RetrievedUnit -/

structure RetrievedUnit where
  id : String
  granth_name : String
  prakran_name : String
  prakran_number : Option ℤ
  prakran_confidence : Option ℚ
  chopai_number : Option String
  prakran_chopai_index : Option ℕ
  chopai_lines : List String
  meaning_text : String
  language_script : String
  page_number : ℕ
  pdf_path : String
  source_set : String
  normalized_text : String
  translit_hi_latn : String
  translit_gu_latn : String
  chunk_text : String
  chunk_type : String
deriving DecidableEq, Repr

def defaultRetrievedUnit : RetrievedUnit :=
  { id := "", granth_name := "", prakran_name := "", prakran_number := none,
    prakran_confidence := none, chopai_number := none, prakran_chopai_index := none,
    chopai_lines := [], meaning_text := "", language_script := "", page_number := 0,
    pdf_path := "", source_set := "", normalized_text := "", translit_hi_latn := "",
    translit_gu_latn := "", chunk_text := "", chunk_type := "" }

instance : Inhabited RetrievedUnit := ⟨defaultRetrievedUnit⟩

/-! ## query_context.py: unit matching -/

/-- The `^prakran\s+(\d{1,3})$` match on the stripped, lowered prakran name:
the remainder after `prakran` and at least one whitespace must be exactly
one to three digits. -/
def explicitPrakranNameNumber (name : List Char) : Option ℕ :=
  if ("prakran" : String).toList.isPrefixOf name then
    match matchWs1 (name.drop 7) with
    | none => none
    | some rest =>
      if rest ≠ [] && rest.length ≤ 3 && rest.all isPyDigit then
        some (digitsToNat (rest.filterMap pyDigitVal))
      else none
  else none

/-- Occurrence of `target` in `text` with no digit immediately before or
after (`(?<!\d)target(?!\d)`). -/
def boundaryOccAux (prevIsDigit : Bool) (text target : List Char) : Bool :=
  (if target.isPrefixOf text && !prevIsDigit then
    match text.drop target.length with
    | [] => true
    | c :: _ => !isPyDigit c
  else false) ||
  (match text with
   | [] => false
   | c :: rest => boundaryOccAux (isPyDigit c) rest target)

def boundaryOcc (text target : List Char) : Bool := boundaryOccAux false text target

/-- `unit_matches_prakran(unit, prakran_number)`. -/
def unit_matches_prakran (unit : RetrievedUnit) (prakran_number : ℕ) : Bool :=
  let target := (toString prakran_number).toList
  let prakran_name := lowerL (stripL unit.prakran_name.toList)
  match explicitPrakranNameNumber prakran_name with
  | some m => decide (m = prakran_number)
  | none =>
    let candidate_text := lowerL
      (normalize_digits unit.prakran_name.toList ++ [' '] ++
        normalize_digits (unit.chunk_text.toList.take 900) ++ [' '] ++
        normalize_digits (unit.normalized_text.toList.take 900))
    if candidate_text = [] then false
    else
      boundaryOcc candidate_text target ||
        containsSub candidate_text ('-' :: (target ++ ['-'])) ||
        containsSub candidate_text (target ++ [')']) ||
        containsSub candidate_text ('(' :: target)

/-- `unit_matches_query(unit, query)`. -/
def unit_matches_query (unit : RetrievedUnit) (query : QueryContext) : Bool :=
  if optTruthy query.granth_name && decide (query.granth_name ≠ some unit.granth_name) then
    false
  else if
      (match query.chopai_number with
       | none => false
       | some q =>
         let parsed := extract_first_number (normalize_digits (unit.chopai_number.getD "").toList)
         decide (parsed ≠ some q) && decide (unit.prakran_chopai_index ≠ some q)) then
    false
  else
    let prakran_numbers := query.prakran_numbers 20
    if prakran_numbers ≠ [] then
      prakran_numbers.any fun n => unit_matches_prakran unit n
    else true

/-! ## Python dict model

A Python dict keyed by unit id, carrying a score accumulator and the last
unit stored under each id.  `keys` lists the ids in insertion order (Python
dicts preserve it); `score` is total and returns the dict's
`get(id, 0.0)` default outside `keys`. -/

structure ScoreMap where
  keys : List String
  score : String → ℚ
  unitOf : String → RetrievedUnit

def ScoreMap.empty : ScoreMap :=
  { keys := [], score := fun _ => 0, unitOf := fun _ => defaultRetrievedUnit }

def ScoreMap.insKey (keys : List String) (id : String) : List String :=
  if keys.contains id then keys else keys ++ [id]

/-- `d[u.id] = d.get(u.id, 0.0) + v` together with `units[u.id] = u`. -/
def ScoreMap.add (m : ScoreMap) (u : RetrievedUnit) (v : ℚ) : ScoreMap :=
  { keys := ScoreMap.insKey m.keys u.id
    score := fun x => if x = u.id then m.score u.id + v else m.score x
    unitOf := fun x => if x = u.id then u else m.unitOf x }

/-- `d[u.id] = max(d.get(u.id, 0.0), v)` together with `units[u.id] = u`. -/
def ScoreMap.setMax (m : ScoreMap) (u : RetrievedUnit) (v : ℚ) : ScoreMap :=
  { keys := ScoreMap.insKey m.keys u.id
    score := fun x => if x = u.id then max (m.score u.id) v else m.score x
    unitOf := fun x => if x = u.id then u else m.unitOf x }

/-- `d[u.id] = v` together with `units[u.id] = u`. -/
def ScoreMap.set (m : ScoreMap) (u : RetrievedUnit) (v : ℚ) : ScoreMap :=
  { keys := ScoreMap.insKey m.keys u.id
    score := fun x => if x = u.id then v else m.score x
    unitOf := fun x => if x = u.id then u else m.unitOf x }

/-- The dict comprehensions `{unit.id: score ...}` / `{unit.id: unit ...}`. -/
def ScoreMap.ofPairs (ranked : List (RetrievedUnit × ℚ)) : ScoreMap :=
  ranked.foldl (fun m p => m.set p.1 p.2) ScoreMap.empty

/-- Well-formedness of the dict model: the unit stored under a key has that
key as its id (every write stores `u` under `u.id`). -/
def ScoreMap.idConsistent (m : ScoreMap) : Prop :=
  ∀ x ∈ m.keys, (m.unitOf x).id = x

/-- `sorted(d.keys(), key=lambda i: d[i], reverse=True)` mapped back to
`(unit, score)` pairs.  Python's sort is stable and `reverse=True` keeps
insertion order among equal scores, as `mergeSort` does with this
comparison. -/
def ScoreMap.ranked (m : ScoreMap) : List (RetrievedUnit × ℚ) :=
  (m.keys.insertionSort fun a b => m.score b ≤ m.score a).map
    fun id => (m.unitOf id, m.score id)

/-- Python `sorted(pairs, key=lambda p: p[1], reverse=True)`: stable
descending sort by score. -/
def pySortDesc (l : List (RetrievedUnit × ℚ)) : List (RetrievedUnit × ℚ) :=
  l.insertionSort fun a b => b.2 ≤ a.2

/-! ## retrieval.py: reciprocal rank fusion -/

structure RetrievalResult where
  unit : RetrievedUnit
  score : ℚ
deriving DecidableEq, Repr

/-- Stream deduplication by first-seen unit id. -/
def dedupByFirstId (seen : List String) : List (RetrievedUnit × ℚ) → List RetrievedUnit
  | [] => []
  | (u, _) :: rest =>
    if seen.contains u.id then dedupByFirstId seen rest
    else u :: dedupByFirstId (u.id :: seen) rest

/-- One `for rank, unit in enumerate(stream, start=1)` accumulation loop of
`reciprocal_rank_fusion`, with the enumeration counter made explicit. -/
def rrfAddStream (k : ℕ) (rank : ℕ) (m : ScoreMap) : List RetrievedUnit → ScoreMap
  | [] => m
  | u :: rest => rrfAddStream k (rank + 1) (m.add u (1 / ((k : ℚ) + rank))) rest

/-- One deduplicated rank stream of `reciprocal_rank_fusion`: stable
descending sort by the stream's own score, then first-seen dedup by id. -/
def rrfDedupStream (l : List (RetrievedUnit × ℚ)) : List RetrievedUnit :=
  dedupByFirstId [] (pySortDesc l)

/-- `reciprocal_rank_fusion(lexical, vector, k)`. -/
def reciprocal_rank_fusion (lexical vector : List (RetrievedUnit × ℚ)) (k : ℕ := 50) :
    List RetrievalResult :=
  let lex_stream := rrfDedupStream lexical
  let vec_stream := rrfDedupStream vector
  let m := rrfAddStream k 1 (rrfAddStream k 1 ScoreMap.empty lex_stream) vec_stream
  m.ranked.map fun p => { unit := p.1, score := p.2 }

/-- Specification-side closed form of one stream's RRF contribution: a unit
ranked (1-based) in the deduplicated stream contributes `1 / (k + rank)`,
an absent unit contributes nothing. -/
def rrfStreamScore (k : ℕ) (stream : List RetrievedUnit) (id : String) : ℚ :=
  let ids := stream.map RetrievedUnit.id
  if ids.contains id then 1 / ((k : ℚ) + 1 + ids.indexOf id) else 0

/-! ## chat.py: agentic retrieval, reference merging, constraints -/

/-- Inner loop of `_agentic_retrieve`: `for rank, item in enumerate(results,
start=1)` accumulating `item.score * query_weight + 1.0 / (40 + rank)`. -/
def agenticInner (query_weight : ℚ) (rank : ℕ) (m : ScoreMap) :
    List RetrievalResult → ScoreMap
  | [] => m
  | r :: rest =>
    agenticInner query_weight (rank + 1)
      (m.add r.unit (r.score * query_weight + 1 / (40 + (rank : ℚ)))) rest

/-- Outer loop of `_agentic_retrieve`: `for query_idx, query in
enumerate(queries)` with `query_weight = 1.0 / (1.0 + query_idx * 0.35)`. -/
def agenticOuter (search : String → ℕ → List RetrievalResult) (per_query_limit : ℕ)
    (query_idx : ℕ) (m : ScoreMap) : List String → ScoreMap
  | [] => m
  | q :: rest =>
    agenticOuter search per_query_limit (query_idx + 1)
      (agenticInner (1 / (1 + (query_idx : ℚ) * (7 / 20))) 1 m (search q per_query_limit)) rest

/-- `_agentic_retrieve`; `search` is the oracle for
`self.retrieval.search(query=..., top_k=per_query_limit, ...)` with the
style and granth/prakran filters fixed by the caller. -/
def agentic_retrieve (search : String → ℕ → List RetrievalResult) (queries : List String)
    (top_k : ℕ) : List (RetrievedUnit × ℚ) :=
  let per_query_limit := max (2 * top_k) 8
  let m := agenticOuter search per_query_limit 0 ScoreMap.empty queries
  m.ranked.take (max top_k 4)

/-- Specification-side closed form: total contribution of one query's result
list to a unit's accumulator, summing `score * query_weight + 1/(40 + rank)`
over the hits with that unit id. -/
def agenticQueryScore (query_weight : ℚ) (rank : ℕ) (id : String) :
    List RetrievalResult → ℚ
  | [] => 0
  | r :: rest =>
    (if r.unit.id = id then r.score * query_weight + 1 / (40 + (rank : ℚ)) else 0) +
      agenticQueryScore query_weight (rank + 1) id rest

/-- Specification-side closed form of the full agentic accumulator: a sum
over sub-queries of `agenticQueryScore` with weight `1 / (1 + 0.35 * i)`. -/
def agenticTotalScore (search : String → ℕ → List RetrievalResult) (per_query_limit : ℕ)
    (query_idx : ℕ) (id : String) : List String → ℚ
  | [] => 0
  | q :: rest =>
    agenticQueryScore (1 / (1 + (query_idx : ℚ) * (7 / 20))) 1 id (search q per_query_limit) +
      agenticTotalScore search per_query_limit (query_idx + 1) id rest

/-- Floor score `0.25 + 1.0 / (30 + rank)` of `_merge_reference_hits`. -/
def referenceFloorScore (rank : ℕ) : ℚ := 1 / 4 + 1 / (30 + (rank : ℚ))

/-- The `for rank, unit in enumerate(reference_hits, start=1)` loop of
`_merge_reference_hits`: each hit's floor score is merged with `max`. -/
def mergeRefLoop (rank : ℕ) (m : ScoreMap) : List RetrievedUnit → ScoreMap
  | [] => m
  | u :: rest => mergeRefLoop (rank + 1) (m.setMax u (referenceFloorScore rank)) rest

/-- `_merge_reference_hits`; `reference_hits` is the oracle result of
`db.lookup_reference_units(..., limit=max(top_k * 5, 20))`. -/
def merge_reference_hits (ranked : List (RetrievedUnit × ℚ)) (query_context : QueryContext)
    (reference_hits : List RetrievedUnit) (top_k : ℕ) : List (RetrievedUnit × ℚ) :=
  if !query_context.has_reference_constraint then ranked
  else
    let m0 := ScoreMap.ofPairs ranked
    let m1 := mergeRefLoop 1 m0 reference_hits
    m1.ranked.take (max (2 * top_k) 10)

/-- Specification-side value of the Python dict comprehension
`{unit.id: score for unit, score in ranked}` at one key (last value wins;
0.0 is the accumulator's `get` default for absent keys). -/
def dictScoreOfPairs (ranked : List (RetrievedUnit × ℚ)) (id : String) : ℚ :=
  ranked.foldl (fun acc p => if p.1.id = id then p.2 else acc) 0

/-- Specification-side closed form of the reference-merge accumulation at
one key: starting from the already-discovered score, take the max with the
floor score of every lookup hit carrying that id. -/
def refFloorFold (rank : ℕ) (id : String) (acc : ℚ) : List RetrievedUnit → ℚ
  | [] => acc
  | u :: rest =>
    refFloorFold (rank + 1) id (if u.id = id then max acc (referenceFloorScore rank) else acc) rest

/-- `_apply_query_constraints`. -/
def apply_query_constraints (ranked : List (RetrievedUnit × ℚ)) (query_context : QueryContext) :
    List (RetrievedUnit × ℚ) :=
  if !query_context.has_reference_constraint then ranked
  else
    let constrained := ranked.filter fun p => unit_matches_query p.1 query_context
    if constrained ≠ [] then constrained else []

/-- `_is_ambiguous_reference`. -/
def is_ambiguous_reference (query_context : QueryContext)
    (strong_results : List (RetrievedUnit × ℚ)) : Bool :=
  if query_context.granth_name.isSome then false
  else if !(query_context.chopai_number.isSome || query_context.prakran_number.isSome) then false
  else if strong_results = [] then false
  else 1 < ((strong_results.map fun p => p.1.granth_name).dedup).length

/-- The `if self._is_ambiguous_reference(...): strong_results = []` step of
`respond`. -/
def apply_ambiguity_guard (query_context : QueryContext)
    (strong_results : List (RetrievedUnit × ℚ)) : List (RetrievedUnit × ℚ) :=
  if is_ambiguous_reference query_context strong_results then [] else strong_results

/-! ## chat.py: diversification -/

/-- `next((number for number in requested if unit_matches_prakran(unit, number)), None)`. -/
def firstMatchedPrakran (requested : List ℕ) (u : RetrievedUnit) : Option ℕ :=
  requested.find? fun n => unit_matches_prakran u n

/-- The main loop of `_diversify_reference_results`: `inl` is the early
`return diversified[:max_items]`, `inr` carries the primary and overflow
lists to the overflow-fill phase. -/
def diversifyLoop (requested : List ℕ) (max_items : ℕ) (counts : ℕ → ℕ)
    (div ovf : List (RetrievedUnit × ℚ)) :
    List (RetrievedUnit × ℚ) →
      (List (RetrievedUnit × ℚ)) ⊕ (List (RetrievedUnit × ℚ) × List (RetrievedUnit × ℚ))
  | [] => Sum.inr (div, ovf)
  | p :: rest =>
    match firstMatchedPrakran requested p.1 with
    | none => diversifyLoop requested max_items counts div (ovf ++ [p]) rest
    | some n =>
      let hit := counts n < 2
      let div2 := if hit then div ++ [p] else div
      let counts2 := if hit then (fun m => if m = n then counts n + 1 else counts m) else counts
      let ovf2 := if hit then ovf else ovf ++ [p]
      if max_items ≤ div2.length then Sum.inl (div2.take max_items)
      else diversifyLoop requested max_items counts2 div2 ovf2 rest

/-- The `for pair in overflow` fill loop (append, then break once the cap
is reached). -/
def fillFromOverflow (max_items : ℕ) (div : List (RetrievedUnit × ℚ)) :
    List (RetrievedUnit × ℚ) → List (RetrievedUnit × ℚ)
  | [] => div
  | p :: rest =>
    let d := div ++ [p]
    if max_items ≤ d.length then d else fillFromOverflow max_items d rest

/-- `_diversify_reference_results`. -/
def diversify_reference_results (ranked_pairs : List (RetrievedUnit × ℚ))
    (query_context : QueryContext) (max_items : ℕ) : List (RetrievedUnit × ℚ) :=
  if ranked_pairs = [] then []
  else
    let sorted_pairs := pySortDesc ranked_pairs
    if query_context.prakran_range_start.isNone || query_context.prakran_range_end.isNone then
      sorted_pairs.take max_items
    else
      let requested_prakrans := query_context.prakran_numbers 24
      if requested_prakrans = [] then sorted_pairs.take max_items
      else
        match diversifyLoop requested_prakrans max_items (fun _ => 0) [] [] sorted_pairs with
        | Sum.inl res => res
        | Sum.inr (div, ovf) => (fillFromOverflow max_items div ovf).take max_items

/-- Number of entries of `l` whose first matching requested section number
(the number the diversification loop counts them against) is `n`. -/
def countFirstMatch (requested : List ℕ) (l : List (RetrievedUnit × ℚ)) (n : ℕ) : ℕ :=
  (l.filter fun p => firstMatchedPrakran requested p.1 = some n).length

/-! ## db.py: lexical search adapter -/

/-- Python `str.isalnum` restricted to the corpus scripts: ASCII
alphanumerics, the Devanagari block and the Gujarati block. -/
def pyIsAlnum (c : Char) : Bool :=
  ('a' ≤ c && c ≤ 'z') || ('A' ≤ c && c ≤ 'Z') || ('0' ≤ c && c ≤ '9') ||
    (0x900 ≤ c.val && c.val ≤ 0x97F) || (0xA80 ≤ c.val && c.val ≤ 0xAFF)

/-- Python `str.split()` (split on whitespace runs, no empty tokens). -/
def splitPyWsAux (cur : List Char) : List Char → List (List Char)
  | [] => if cur = [] then [] else [cur.reverse]
  | c :: rest =>
    if wsChar c then
      if cur = [] then splitPyWsAux [] rest else cur.reverse :: splitPyWsAux [] rest
    else splitPyWsAux (c :: cur) rest

def splitPyWs (s : List Char) : List (List Char) := splitPyWsAux [] s

def joinSep (sep : List Char) : List (List Char) → List Char
  | [] => []
  | [x] => x
  | x :: rest => x ++ sep ++ joinSep sep rest

/-- `_build_fts_query`: strip quotes, tokenise on whitespace, keep the
alphanumeric characters of each token, append `*`, join with ` OR `. -/
def build_fts_query (query : List Char) : List Char :=
  let cleaned := query.map fun c => if c = '"' || c = '\'' then ' ' else c
  joinSep (" OR " : String).toList
    ((splitPyWs cleaned).filterMap fun t =>
      let t2 := t.filter pyIsAlnum
      if t2 = [] then none else some (t2 ++ ['*']))

/-- `search_fts(query, ...)`: `rows` is the oracle for the rows the SQL
query returns, paired with their raw `bm25_score`.  Returns empty when no
usable FTS query remains; otherwise converts each raw ascending-is-better
score via `1.0 / (1.0 + max(score, 0.0))`. -/
def search_fts (query : List Char) (rows : List (RetrievedUnit × ℚ)) :
    List (RetrievedUnit × ℚ) :=
  if build_fts_query query = [] then []
  else rows.map fun p => (p.1, 1 / (1 + max p.2 0))

/-! ## config.py and the respond grounding pipeline -/

structure Settings where
  retrieval_top_k : ℕ := 6
  minimum_grounding_score : ℚ := 3 / 200
deriving Repr

def defaultSettings : Settings := {}

/-- The grounding portion of `ChatService.respond` (chat.py lines 111-122):
reference merging, constraint filtering, the minimum-grounding-score cut,
diversification, then the ambiguity guard.  `aggregated` is the agentic
retrieval output and `reference_hits` the structural lookup oracle. -/
def respond_grounding_pipeline (settings : Settings) (aggregated : List (RetrievedUnit × ℚ))
    (query_context : QueryContext) (reference_hits : List RetrievedUnit) (top_k : ℕ) :
    List (RetrievedUnit × ℚ) :=
  let merged := merge_reference_hits aggregated query_context reference_hits top_k
  let constrained := apply_query_constraints merged query_context
  let strong := constrained.filter fun p => decide (settings.minimum_grounding_score ≤ p.2)
  let strong2 := diversify_reference_results strong query_context (max top_k 4)
  apply_ambiguity_guard query_context strong2

/-- Specification-side name of the candidate text `unit_matches_prakran`
scans: digit-normalised prakran name plus the 900-character prefixes of the
raw and normalised text, space-joined and lowered. -/
def prakranCandidateText (unit : RetrievedUnit) : List Char :=
  lowerL
    (normalize_digits unit.prakran_name.toList ++ [' '] ++
      normalize_digits (unit.chunk_text.toList.take 900) ++ [' '] ++
      normalize_digits (unit.normalized_text.toList.take 900))

/-- Specification-side disjunction of the four boundary-safe/delimited
textual patterns of `unit_matches_prakran`. -/
def boundarySafeTextMatch (unit : RetrievedUnit) (n : ℕ) : Bool :=
  let target := (toString n).toList
  boundaryOcc (prakranCandidateText unit) target ||
    containsSub (prakranCandidateText unit) ('-' :: (target ++ ['-'])) ||
    containsSub (prakranCandidateText unit) (target ++ [')']) ||
    containsSub (prakranCandidateText unit) ('(' :: target)

/-- Builder for concrete `RetrievedUnit` instances used in closed
evaluations (witnesses and counterexamples). -/
def mkTestUnit (id : String) (granth : String := "G") (pname : String := "")
    (ctext : String := "") (num : Option ℤ := none) (chno : Option String := none)
    (idx : Option ℕ := none) : RetrievedUnit :=
  { defaultRetrievedUnit with
    id := id, granth_name := granth, prakran_name := pname, chunk_text := ctext,
    normalized_text := ctext, prakran_number := num, chopai_number := chno,
    prakran_chopai_index := idx }

/-- Builder for concrete `QueryContext` instances used in closed
evaluations. -/
def mkTestContext (granth : Option String := none) (num : Option ℕ := none)
    (rs : Option ℕ := none) (re : Option ℕ := none) (ch : Option ℕ := none) :
    QueryContext :=
  { intent := "general_qa", granth_name := granth, prakran_number := num,
    prakran_range_start := rs, prakran_range_end := re, chopai_number := ch,
    requires_summary := false, requires_count := false, context_carried := false,
    notes := [] }

/-- Concrete diversification fixture: a 3-section range with three
candidates per section, scores strictly descending. -/
def diversifyWitnessUnits : List (RetrievedUnit × ℚ) :=
  [(mkTestUnit "u1" "G" "" "-1-", 9), (mkTestUnit "u2" "G" "" "-1-", 8),
   (mkTestUnit "u3" "G" "" "-1-", 7), (mkTestUnit "u4" "G" "" "-2-", 6),
   (mkTestUnit "u5" "G" "" "-2-", 5), (mkTestUnit "u6" "G" "" "-2-", 4),
   (mkTestUnit "u7" "G" "" "-3-", 3), (mkTestUnit "u8" "G" "" "-3-", 2),
   (mkTestUnit "u9" "G" "" "-3-", 1)]

/-- Expected primary result of the diversification fixture: two top
candidates per requested section. -/
def diversifyWitnessPrimary : List (RetrievedUnit × ℚ) :=
  [(mkTestUnit "u1" "G" "" "-1-", 9), (mkTestUnit "u2" "G" "" "-1-", 8),
   (mkTestUnit "u4" "G" "" "-2-", 6), (mkTestUnit "u5" "G" "" "-2-", 5),
   (mkTestUnit "u7" "G" "" "-3-", 3), (mkTestUnit "u8" "G" "" "-3-", 2)]

/-! # Theorems

Shared lemmas about the dict model and the sorting idiom, then one theorem
(plus witness or counterexample) per claim. -/

theorem mem_insKey {keys : List String} {id x : String} :
    x ∈ ScoreMap.insKey keys id ↔ x ∈ keys ∨ x = id := by
  unfold ScoreMap.insKey
  split
  · next h =>
    simp only [List.elem_iff] at h
    constructor
    · exact Or.inl
    · rintro (hx | rfl)
      · exact hx
      · exact h
  · simp [List.mem_append]

theorem ScoreMap.idConsistent_add {m : ScoreMap} (h : m.idConsistent)
    (u : RetrievedUnit) (v : ℚ) : (m.add u v).idConsistent := by
  intro x hx
  simp only [ScoreMap.add, mem_insKey] at hx
  simp only [ScoreMap.add]
  split
  · next hxu => exact hxu.symm
  · next hxu =>
    rcases hx with hx | rfl
    · exact h x hx
    · exact absurd rfl hxu

theorem ScoreMap.idConsistent_set {m : ScoreMap} (h : m.idConsistent)
    (u : RetrievedUnit) (v : ℚ) : (m.set u v).idConsistent := by
  intro x hx
  simp only [ScoreMap.set, mem_insKey] at hx
  simp only [ScoreMap.set]
  split
  · next hxu => exact hxu.symm
  · next hxu =>
    rcases hx with hx | rfl
    · exact h x hx
    · exact absurd rfl hxu

theorem ScoreMap.idConsistent_setMax {m : ScoreMap} (h : m.idConsistent)
    (u : RetrievedUnit) (v : ℚ) : (m.setMax u v).idConsistent := by
  intro x hx
  simp only [ScoreMap.setMax, mem_insKey] at hx
  simp only [ScoreMap.setMax]
  split
  · next hxu => exact hxu.symm
  · next hxu =>
    rcases hx with hx | rfl
    · exact h x hx
    · exact absurd rfl hxu

theorem ScoreMap.idConsistent_empty : ScoreMap.empty.idConsistent := by
  intro x hx
  simp [ScoreMap.empty] at hx

theorem ScoreMap.sortKeys_pairwise (m : ScoreMap) :
    (m.keys.insertionSort fun a b => m.score b ≤ m.score a).Pairwise
      fun a b => m.score b ≤ m.score a := by
  haveI : IsTotal String fun a b => m.score b ≤ m.score a := ⟨fun a b => le_total _ _⟩
  haveI : IsTrans String fun a b => m.score b ≤ m.score a :=
    ⟨fun a b c hab hbc => le_trans hbc hab⟩
  exact List.sorted_insertionSort _ m.keys

theorem ScoreMap.ranked_pairwise (m : ScoreMap) :
    m.ranked.Pairwise fun a b => b.2 ≤ a.2 := by
  unfold ScoreMap.ranked
  rw [List.pairwise_map]
  exact (ScoreMap.sortKeys_pairwise m).imp fun h => h

theorem ScoreMap.mem_ranked {m : ScoreMap} {p : RetrievedUnit × ℚ} (hp : p ∈ m.ranked) :
    ∃ id, id ∈ m.keys ∧ p = (m.unitOf id, m.score id) := by
  unfold ScoreMap.ranked at hp
  rcases List.mem_map.1 hp with ⟨id, hid, rfl⟩
  exact ⟨id, (List.perm_insertionSort _ m.keys).mem_iff.1 hid, rfl⟩

theorem ScoreMap.mem_ranked_score {m : ScoreMap} {p : RetrievedUnit × ℚ}
    (hm : m.idConsistent) (hp : p ∈ m.ranked) :
    p.1.id ∈ m.keys ∧ p.2 = m.score p.1.id := by
  obtain ⟨id, hid, rfl⟩ := ScoreMap.mem_ranked hp
  have h := hm id hid
  constructor
  · simpa [h] using hid
  · simp [h]

theorem ScoreMap.ranked_ids {m : ScoreMap} (hm : m.idConsistent) :
    m.ranked.map (fun p => p.1.id) =
      m.keys.insertionSort fun a b => m.score b ≤ m.score a := by
  unfold ScoreMap.ranked
  rw [List.map_map]
  conv_rhs => rw [← List.map_id (m.keys.insertionSort fun a b => m.score b ≤ m.score a)]
  apply List.map_congr_left
  intro a ha
  exact hm a ((List.perm_insertionSort _ m.keys).mem_iff.1 ha)

theorem indexOf_lt_of_score_lt {f : String → ℚ} :
    ∀ {l : List String}, (l.Pairwise fun a b => f b ≤ f a) →
      ∀ {a b : String}, a ∈ l → b ∈ l → f b < f a → l.indexOf a < l.indexOf b := by
  intro l
  induction l with
  | nil =>
    intro _ a b ha
    simp at ha
  | cons c t ih =>
    intro hp a b ha hb hab
    rw [List.pairwise_cons] at hp
    by_cases hca : c = a
    · subst hca
      have hb' : b ∈ t := by
        rcases List.mem_cons.1 hb with h | h
        · subst h
          exact absurd hab (lt_irrefl (f b))
        · exact h
      have hne : (c == b) = false := by
        refine beq_false_of_ne fun h => ?_
        subst h
        exact absurd hab (lt_irrefl (f c))
      rw [List.indexOf_cons, List.indexOf_cons]
      simp [hne]
    · have ha' : a ∈ t := by
        rcases List.mem_cons.1 ha with h | h
        · exact absurd h.symm hca
        · exact h
      by_cases hcb : c = b
      · subst hcb
        exact absurd hab (not_lt_of_le (hp.1 a ha'))
      · have hb' : b ∈ t := by
          rcases List.mem_cons.1 hb with h | h
          · exact absurd h.symm hcb
          · exact h
        have h1 : (c == a) = false := beq_false_of_ne fun h => hca h
        have h2 : (c == b) = false := beq_false_of_ne fun h => hcb h
        rw [List.indexOf_cons, List.indexOf_cons]
        simp only [h1, h2, cond_false]
        exact Nat.succ_lt_succ (ih hp.2 ha' hb' hab)

theorem rrfAddStream_score (k : ℕ) (stream : List RetrievedUnit) :
    ∀ (rank : ℕ) (m : ScoreMap) (x : String), ((stream.map RetrievedUnit.id).Nodup) →
      (rrfAddStream k rank m stream).score x =
        m.score x +
          (if x ∈ stream.map RetrievedUnit.id then
            1 / ((k : ℚ) + rank + (stream.map RetrievedUnit.id).indexOf x)
          else 0) := by
  induction stream with
  | nil =>
    intro rank m x _
    simp [rrfAddStream]
  | cons u rest ih =>
    intro rank m x hnd
    simp only [List.map_cons, List.nodup_cons] at hnd
    obtain ⟨hu, hnd⟩ := hnd
    rw [show rrfAddStream k rank m (u :: rest) =
      rrfAddStream k (rank + 1) (m.add u (1 / ((k : ℚ) + rank))) rest from rfl]
    rw [ih (rank + 1) _ x hnd]
    by_cases hx : x = u.id
    · subst hx
      rw [if_neg hu]
      simp only [ScoreMap.add, if_pos rfl, List.map_cons, List.mem_cons, true_or, if_pos,
        List.indexOf_cons, beq_self_eq_true, cond_true]
      push_cast
      ring
    · have hbeq : (u.id == x) = false := beq_false_of_ne fun h => hx h.symm
      by_cases hmem : x ∈ rest.map RetrievedUnit.id
      · simp only [ScoreMap.add, if_neg hx, List.map_cons, List.mem_cons, hmem, or_true,
          if_pos, List.indexOf_cons, hbeq, cond_false]
        push_cast
        ring_nf
      · have hnot : ¬(x = u.id ∨ x ∈ rest.map RetrievedUnit.id) := by
          rintro (h | h)
          · exact hx h
          · exact hmem h
        simp only [ScoreMap.add, if_neg hx, List.map_cons, List.mem_cons, if_neg hmem,
          if_neg hnot, add_zero]

theorem rrfAddStream_mem_keys (k : ℕ) (stream : List RetrievedUnit) :
    ∀ (rank : ℕ) (m : ScoreMap) (x : String),
      x ∈ (rrfAddStream k rank m stream).keys ↔
        x ∈ m.keys ∨ x ∈ stream.map RetrievedUnit.id := by
  induction stream with
  | nil =>
    intro rank m x
    simp [rrfAddStream]
  | cons u rest ih =>
    intro rank m x
    rw [show rrfAddStream k rank m (u :: rest) =
      rrfAddStream k (rank + 1) (m.add u (1 / ((k : ℚ) + rank))) rest from rfl]
    rw [ih]
    simp only [ScoreMap.add, mem_insKey, List.map_cons, List.mem_cons]
    tauto

theorem rrfAddStream_idConsistent (k : ℕ) (stream : List RetrievedUnit) :
    ∀ (rank : ℕ) (m : ScoreMap), m.idConsistent →
      (rrfAddStream k rank m stream).idConsistent := by
  induction stream with
  | nil =>
    intro rank m hm
    exact hm
  | cons u rest ih =>
    intro rank m hm
    exact ih (rank + 1) _ (ScoreMap.idConsistent_add hm u _)

theorem dedupByFirstId_nodup (l : List (RetrievedUnit × ℚ)) :
    ∀ seen : List String,
      ((dedupByFirstId seen l).map RetrievedUnit.id).Nodup ∧
        ∀ x ∈ (dedupByFirstId seen l).map RetrievedUnit.id, x ∉ seen := by
  induction l with
  | nil =>
    intro seen
    simp [dedupByFirstId]
  | cons p rest ih =>
    intro seen
    obtain ⟨u, s⟩ := p
    rw [dedupByFirstId]
    split
    · next h => exact ih seen
    · next h =>
      have hc : u.id ∉ seen := fun hmem => h (by simpa [List.elem_iff] using hmem)
      obtain ⟨ihn, ihs⟩ := ih (u.id :: seen)
      constructor
      · simp only [List.map_cons, List.nodup_cons]
        refine ⟨fun hmem => ?_, ihn⟩
        exact (ihs _ hmem) (List.mem_cons_self _ _)
      · intro x hx
        simp only [List.map_cons, List.mem_cons] at hx
        rcases hx with rfl | hx
        · exact hc
        · intro hxs
          exact (ihs x hx) (List.mem_cons_of_mem _ hxs)

theorem dedupByFirstId_keeps_highest (sl : List (RetrievedUnit × ℚ)) :
    ∀ seen : List String, (sl.Pairwise fun a b => b.2 ≤ a.2) →
      ∀ u ∈ dedupByFirstId seen sl,
        ∃ s, (u, s) ∈ sl ∧ ∀ v ∈ sl, v.1.id = u.id → v.2 ≤ s := by
  induction sl with
  | nil =>
    intro seen _ u hu
    simp [dedupByFirstId] at hu
  | cons p rest ih =>
    intro seen hp u hu
    obtain ⟨w, s⟩ := p
    rw [List.pairwise_cons] at hp
    rw [dedupByFirstId] at hu
    split at hu
    · next h =>
      obtain ⟨s', hmem, hbound⟩ := ih seen hp.2 u hu
      refine ⟨s', List.mem_cons_of_mem _ hmem, ?_⟩
      intro v hv hvid
      rcases List.mem_cons.1 hv with rfl | hv'
      · exfalso
        have hid : u.id ∉ seen :=
          (dedupByFirstId_nodup rest seen).2 u.id (List.mem_map.2 ⟨u, hu, rfl⟩)
        rw [← hvid] at hid
        exact hid (by simpa [List.elem_iff] using h)
      · exact hbound v hv' hvid
    · next h =>
      rcases List.mem_cons.1 hu with rfl | hu'
      · refine ⟨s, List.mem_cons_self _ _, ?_⟩
        intro v hv _
        rcases List.mem_cons.1 hv with rfl | hv'
        · exact le_refl _
        · exact hp.1 v hv'
      · obtain ⟨s', hmem, hbound⟩ := ih (w.id :: seen) hp.2 u hu'
        refine ⟨s', List.mem_cons_of_mem _ hmem, ?_⟩
        intro v hv hvid
        rcases List.mem_cons.1 hv with rfl | hv'
        · exfalso
          have hid : u.id ∉ w.id :: seen :=
            (dedupByFirstId_nodup rest (w.id :: seen)).2 u.id (List.mem_map.2 ⟨u, hu', rfl⟩)
          apply hid
          rw [← hvid]
          exact List.mem_cons_self _ _
        · exact hbound v hv' hvid

theorem pySortDesc_pairwise (l : List (RetrievedUnit × ℚ)) :
    (pySortDesc l).Pairwise fun a b => b.2 ≤ a.2 := by
  haveI : IsTotal (RetrievedUnit × ℚ) fun a b => b.2 ≤ a.2 := ⟨fun a b => le_total _ _⟩
  haveI : IsTrans (RetrievedUnit × ℚ) fun a b => b.2 ≤ a.2 :=
    ⟨fun a b c hab hbc => le_trans hbc hab⟩
  exact List.sorted_insertionSort _ l

theorem pySortDesc_perm (l : List (RetrievedUnit × ℚ)) : (pySortDesc l).Perm l :=
  List.perm_insertionSort _ l

theorem rrfStreamScore_eq (k : ℕ) (stream : List RetrievedUnit) (x : String) :
    rrfStreamScore k stream x =
      if x ∈ stream.map RetrievedUnit.id then
        1 / ((k : ℚ) + 1 + (stream.map RetrievedUnit.id).indexOf x)
      else 0 := by
  unfold rrfStreamScore
  by_cases h : x ∈ stream.map RetrievedUnit.id
  · rw [if_pos h, if_pos (by simpa [List.elem_iff] using h)]
  · rw [if_neg h, if_neg (by simpa [List.elem_iff] using h)]

theorem eq_cons_of_headSome {l : List String} {a : String} (h : l.head? = some a) :
    ∃ t, l = a :: t := by
  cases l with
  | nil => simp at h
  | cons b t =>
    simp only [List.head?_cons, Option.some.injEq] at h
    exact ⟨t, by rw [h]⟩

/-- C2: in `reciprocal_rank_fusion`, each input stream is deduplicated by
unit id keeping its highest-scored occurrence, each stream is ranked
1-based by descending score, each unit's fused score is the sum over the
streams containing it of `1/(k + rank)` (the closed form
`rrfStreamScore`), the output is sorted descending by fused score, and for
every `k > 0` a unit at rank 1 of one stream that is also present in the
other stream always outranks a unit present at rank 1 in only one
stream. -/
theorem reciprocal_rank_fusion_spec (lexical vector : List (RetrievedUnit × ℚ)) (k : ℕ)
    (hk : 0 < k) :
    (∀ u ∈ rrfDedupStream lexical,
        ∃ s, (u, s) ∈ lexical ∧ ∀ v ∈ lexical, v.1.id = u.id → v.2 ≤ s) ∧
    (∀ u ∈ rrfDedupStream vector,
        ∃ s, (u, s) ∈ vector ∧ ∀ v ∈ vector, v.1.id = u.id → v.2 ≤ s) ∧
    ((reciprocal_rank_fusion lexical vector k).Pairwise fun a b => b.score ≤ a.score) ∧
    (∀ r ∈ reciprocal_rank_fusion lexical vector k,
        r.score = rrfStreamScore k (rrfDedupStream lexical) r.unit.id +
          rrfStreamScore k (rrfDedupStream vector) r.unit.id) ∧
    (∀ uid vid, uid ≠ vid →
      ((((rrfDedupStream lexical).map RetrievedUnit.id).head? = some uid ∧
          uid ∈ (rrfDedupStream vector).map RetrievedUnit.id ∧
          (((rrfDedupStream vector).map RetrievedUnit.id).head? = some vid ∧
            vid ∉ (rrfDedupStream lexical).map RetrievedUnit.id)) ∨
        (((rrfDedupStream vector).map RetrievedUnit.id).head? = some uid ∧
          uid ∈ (rrfDedupStream lexical).map RetrievedUnit.id ∧
          (((rrfDedupStream lexical).map RetrievedUnit.id).head? = some vid ∧
            vid ∉ (rrfDedupStream vector).map RetrievedUnit.id))) →
      ((reciprocal_rank_fusion lexical vector k).map fun r => r.unit.id).indexOf uid <
        ((reciprocal_rank_fusion lexical vector k).map fun r => r.unit.id).indexOf vid) := by
  have keeps : ∀ l : List (RetrievedUnit × ℚ), ∀ u ∈ rrfDedupStream l,
      ∃ s, (u, s) ∈ l ∧ ∀ v ∈ l, v.1.id = u.id → v.2 ≤ s := by
    intro l u hu
    obtain ⟨s, hmem, hbound⟩ :=
      dedupByFirstId_keeps_highest (pySortDesc l) [] (pySortDesc_pairwise l) u hu
    exact ⟨s, (pySortDesc_perm l).mem_iff.1 hmem,
      fun v hv hvid => hbound v ((pySortDesc_perm l).mem_iff.2 hv) hvid⟩
  have hLn : ((rrfDedupStream lexical).map RetrievedUnit.id).Nodup :=
    (dedupByFirstId_nodup (pySortDesc lexical) []).1
  have hVn : ((rrfDedupStream vector).map RetrievedUnit.id).Nodup :=
    (dedupByFirstId_nodup (pySortDesc vector) []).1
  set mFull := rrfAddStream k 1
    (rrfAddStream k 1 ScoreMap.empty (rrfDedupStream lexical)) (rrfDedupStream vector) with hm
  have hrrf : reciprocal_rank_fusion lexical vector k =
      mFull.ranked.map fun p => { unit := p.1, score := p.2 } := rfl
  have hic : mFull.idConsistent :=
    rrfAddStream_idConsistent k _ 1 _
      (rrfAddStream_idConsistent k _ 1 _ ScoreMap.idConsistent_empty)
  have hscore : ∀ x, mFull.score x =
      rrfStreamScore k (rrfDedupStream lexical) x +
        rrfStreamScore k (rrfDedupStream vector) x := by
    intro x
    rw [hm, rrfAddStream_score k _ 1 _ x hVn, rrfAddStream_score k _ 1 _ x hLn,
      rrfStreamScore_eq, rrfStreamScore_eq]
    show (0 : ℚ) + _ + _ = _ + _
    push_cast
    ring
  refine ⟨keeps lexical, keeps vector, ?_, ?_, ?_⟩
  · rw [hrrf, List.pairwise_map]
    exact (ScoreMap.ranked_pairwise mFull).imp fun h => h
  · intro r hr
    rw [hrrf] at hr
    obtain ⟨p, hp, rfl⟩ := List.mem_map.1 hr
    have h := ScoreMap.mem_ranked_score hic hp
    show p.2 = _
    rw [h.2, hscore]
  · intro uid vid hne hcase
    have hids : ((reciprocal_rank_fusion lexical vector k).map fun r => r.unit.id) =
        mFull.keys.insertionSort fun a b => mFull.score b ≤ mFull.score a := by
      rw [hrrf, List.map_map]
      exact ScoreMap.ranked_ids hic
    have hmemkeys : ∀ x, x ∈ (rrfDedupStream lexical).map RetrievedUnit.id ∨
        x ∈ (rrfDedupStream vector).map RetrievedUnit.id → x ∈ mFull.keys := by
      intro x hx
      rw [hm, rrfAddStream_mem_keys, rrfAddStream_mem_keys]
      simp only [ScoreMap.empty, List.not_mem_nil, false_or]
      exact hx
    have hlt : mFull.score vid < mFull.score uid := by
      rcases hcase with ⟨hu1, hu2, hv1, hv2⟩ | ⟨hu1, hu2, hv1, hv2⟩
      · obtain ⟨tL, htL⟩ := eq_cons_of_headSome hu1
        obtain ⟨tV, htV⟩ := eq_cons_of_headSome hv1
        rw [htL] at hv2
        rw [htV] at hu2
        rw [hscore, hscore, rrfStreamScore_eq, rrfStreamScore_eq, rrfStreamScore_eq,
          rrfStreamScore_eq, htL, htV]
        rw [if_pos (List.mem_cons_self uid tL), if_neg hv2, if_pos hu2,
          if_pos (List.mem_cons_self vid tV)]
        rw [List.indexOf_cons_self uid tL, List.indexOf_cons_self vid tV]
        have hp2 : (0 : ℚ) < 1 / ((k : ℚ) + 1 + ((vid :: tV).indexOf uid : ℚ)) := by
          positivity
        push_cast
        linarith
      · obtain ⟨tV, htV⟩ := eq_cons_of_headSome hu1
        obtain ⟨tL, htL⟩ := eq_cons_of_headSome hv1
        rw [htV] at hv2
        rw [htL] at hu2
        rw [hscore, hscore, rrfStreamScore_eq, rrfStreamScore_eq, rrfStreamScore_eq,
          rrfStreamScore_eq, htL, htV]
        rw [if_pos hu2, if_pos (List.mem_cons_self uid tV),
          if_pos (List.mem_cons_self vid tL), if_neg hv2]
        rw [List.indexOf_cons_self uid tV, List.indexOf_cons_self vid tL]
        have hp2 : (0 : ℚ) < 1 / ((k : ℚ) + 1 + ((uid :: tV).indexOf vid : ℚ)) := by
          positivity
        have hp3 : (0 : ℚ) < 1 / ((k : ℚ) + 1 + ((vid :: tL).indexOf uid : ℚ)) := by
          positivity
        push_cast
        linarith
    have humem : uid ∈ mFull.keys := by
      apply hmemkeys
      rcases hcase with ⟨hu1, hu2, _⟩ | ⟨hu1, hu2, _⟩
      · obtain ⟨tL, htL⟩ := eq_cons_of_headSome hu1
        exact Or.inl (by rw [htL]; exact List.mem_cons_self uid tL)
      · exact Or.inl hu2
    have hvmem : vid ∈ mFull.keys := by
      apply hmemkeys
      rcases hcase with ⟨_, _, hv1, _⟩ | ⟨_, _, hv1, _⟩
      · obtain ⟨tV, htV⟩ := eq_cons_of_headSome hv1
        exact Or.inr (by rw [htV]; exact List.mem_cons_self vid tV)
      · obtain ⟨tL, htL⟩ := eq_cons_of_headSome hv1
        exact Or.inl (by rw [htL]; exact List.mem_cons_self vid tL)
    rw [hids]
    exact indexOf_lt_of_score_lt (ScoreMap.sortKeys_pairwise mFull)
      ((List.perm_insertionSort _ mFull.keys).mem_iff.2 humem)
      ((List.perm_insertionSort _ mFull.keys).mem_iff.2 hvmem) hlt

/-- C2 witness: the spec's end-to-end fusion example.  Lexical `[(a, 0.9),
(b, 0.8)]` and vector `[(b, 0.9), (c, 0.8)]` at `k = 50`: `b` (rank 1 of the
vector stream, also present in the lexical stream) outranks `a` (rank 1 of
the lexical stream only). -/
theorem reciprocal_rank_fusion_spec_witness :
    0 < 50 ∧
    (((reciprocal_rank_fusion [(mkTestUnit "a", 9/10), (mkTestUnit "b", 8/10)]
          [(mkTestUnit "b", 9/10), (mkTestUnit "c", 8/10)] 50).map
        fun r => r.unit.id).indexOf "b" <
      ((reciprocal_rank_fusion [(mkTestUnit "a", 9/10), (mkTestUnit "b", 8/10)]
          [(mkTestUnit "b", 9/10), (mkTestUnit "c", 8/10)] 50).map
        fun r => r.unit.id).indexOf "a") := by
  have e1 : (rrfDedupStream [(mkTestUnit "a", (9:ℚ)/10), (mkTestUnit "b", 8/10)]).map
      RetrievedUnit.id = ["a", "b"] := by
    norm_num +decide [rrfDedupStream, pySortDesc, List.insertionSort, List.orderedInsert,
      dedupByFirstId, mkTestUnit, defaultRetrievedUnit]
  have e2 : (rrfDedupStream [(mkTestUnit "b", (9:ℚ)/10), (mkTestUnit "c", 8/10)]).map
      RetrievedUnit.id = ["b", "c"] := by
    norm_num +decide [rrfDedupStream, pySortDesc, List.insertionSort, List.orderedInsert,
      dedupByFirstId, mkTestUnit, defaultRetrievedUnit]
  refine ⟨by norm_num, ?_⟩
  exact (reciprocal_rank_fusion_spec
      [(mkTestUnit "a", 9/10), (mkTestUnit "b", 8/10)]
      [(mkTestUnit "b", 9/10), (mkTestUnit "c", 8/10)] 50 (by norm_num)).2.2.2.2 "b" "a"
    (by decide)
    (Or.inr ⟨by rw [e2]; rfl, by rw [e1]; simp, by rw [e1]; rfl, by rw [e2]; simp⟩)

/-- C6: `_apply_query_constraints` returns the input unchanged when the
context carries no reference constraint, and when a constraint is present
and `unit_matches_query` rejects every candidate it returns the empty list,
never falling back to the unfiltered candidates. -/
theorem apply_query_constraints_spec (ranked : List (RetrievedUnit × ℚ)) (qc : QueryContext) :
    (qc.has_reference_constraint = false → apply_query_constraints ranked qc = ranked) ∧
    (qc.has_reference_constraint = true →
      (∀ p ∈ ranked, ¬ unit_matches_query p.1 qc = true) →
      apply_query_constraints ranked qc = []) := by
  constructor
  · intro h
    simp [apply_query_constraints, h]
  · intro h hall
    have hf : ranked.filter (fun p => unit_matches_query p.1 qc) = [] :=
      List.filter_eq_nil_iff.2 hall
    simp [apply_query_constraints, h, hf]

/-- C6 witness: a work-name constraint (`granth = G`) plus a single
candidate from a different work (`H`) yields the empty list. -/
theorem apply_query_constraints_spec_witness :
    (mkTestContext (some "G")).has_reference_constraint = true ∧
    apply_query_constraints [(mkTestUnit "a" "H", 1)] (mkTestContext (some "G")) = [] := by
  refine ⟨by decide, ?_⟩
  exact (apply_query_constraints_spec [(mkTestUnit "a" "H", 1)]
    (mkTestContext (some "G"))).2 (by decide) (by decide)

theorem one_lt_dedup_length {l : List String} {a b : String} (ha : a ∈ l) (hb : b ∈ l)
    (hab : a ≠ b) : 1 < l.dedup.length := by
  have ha' : a ∈ l.dedup := List.mem_dedup.2 ha
  have hb' : b ∈ l.dedup := List.mem_dedup.2 hb
  cases hd : l.dedup with
  | nil =>
    rw [hd] at ha'
    simp at ha'
  | cons x t =>
    cases ht : t with
    | nil =>
      rw [hd, ht] at ha' hb'
      simp at ha' hb'
      exact absurd (ha'.trans hb'.symm) hab
    | cons y t2 =>
      simp [hd, ht]

/-- C5 counterexample: a section-range-only context (no work name, no
single section number, no verse number) with candidates from two distinct
works is NOT discarded: the guard of `respond` leaves the result set
unchanged, contradicting the claim that a range request without a work
anchor spanning several works returns empty. -/
theorem ambiguity_guard_range_counterexample :
    (mkTestContext none none (some 1) (some 2) none).granth_name = none ∧
    (mkTestContext none none (some 1) (some 2) none).prakran_range_start = some 1 ∧
    (mkTestContext none none (some 1) (some 2) none).prakran_range_end = some 2 ∧
    1 < (([(mkTestUnit "a" "G1", (1 : ℚ)), (mkTestUnit "b" "G2", 1)].map
        fun p => p.1.granth_name).dedup).length ∧
    apply_ambiguity_guard (mkTestContext none none (some 1) (some 2) none)
        [(mkTestUnit "a" "G1", 1), (mkTestUnit "b" "G2", 1)] =
      [(mkTestUnit "a" "G1", 1), (mkTestUnit "b" "G2", 1)] := by
  refine ⟨rfl, rfl, rfl, by decide, rfl⟩

/-- C5 amended: the cross-work ambiguity guard discards the whole result
set exactly for a verse-number or single-section-number request without a
work name whose surviving candidates span at least two distinct works; a
range-only request does not trigger it (see the counterexample). -/
theorem ambiguity_guard_spec (qc : QueryContext) (strong : List (RetrievedUnit × ℚ))
    (hg : qc.granth_name = none)
    (hn : qc.chopai_number.isSome = true ∨ qc.prakran_number.isSome = true)
    (u v : RetrievedUnit × ℚ) (hu : u ∈ strong) (hv : v ∈ strong)
    (hne : u.1.granth_name ≠ v.1.granth_name) :
    apply_ambiguity_guard qc strong = [] := by
  have h2 : (qc.chopai_number.isSome || qc.prakran_number.isSome) = true := by
    rcases hn with h | h <;> simp [h]
  have h3 : strong ≠ [] := List.ne_nil_of_mem hu
  have h4 : 1 < ((strong.map fun p => p.1.granth_name).dedup).length :=
    one_lt_dedup_length (List.mem_map.2 ⟨u, hu, rfl⟩) (List.mem_map.2 ⟨v, hv, rfl⟩) hne
  have hamb : is_ambiguous_reference qc strong = true := by
    unfold is_ambiguous_reference
    rw [hg]
    simp [h2, h3, h4]
  simp [apply_ambiguity_guard, hamb]

/-- C5 witness: a verse-only request (`chopai 5`, no work) with candidates
from two distinct works returns empty. -/
theorem ambiguity_guard_spec_witness :
    apply_ambiguity_guard (mkTestContext none none none none (some 5))
      [(mkTestUnit "a" "G1", 1), (mkTestUnit "b" "G2", 1)] = [] := by
  exact ambiguity_guard_spec (mkTestContext none none none none (some 5))
    [(mkTestUnit "a" "G1", 1), (mkTestUnit "b" "G2", 1)] rfl (Or.inl rfl)
    (mkTestUnit "a" "G1", 1) (mkTestUnit "b" "G2", 1) (by decide) (by decide) (by decide)

theorem splitPyWsAux_chars (s : List Char) :
    ∀ (cur t : List Char), t ∈ splitPyWsAux cur s → ∀ c ∈ t, c ∈ cur ∨ c ∈ s := by
  induction s with
  | nil =>
    intro cur t ht c hc
    unfold splitPyWsAux at ht
    split at ht
    · simp at ht
    · simp only [List.mem_singleton] at ht
      subst ht
      exact Or.inl (List.mem_reverse.1 hc)
  | cons a rest ih =>
    intro cur t ht c hc
    unfold splitPyWsAux at ht
    split at ht
    · split at ht
      · rcases ih [] t ht c hc with h | h
        · simp at h
        · exact Or.inr (List.mem_cons_of_mem _ h)
      · rcases List.mem_cons.1 ht with rfl | ht'
        · exact Or.inl (List.mem_reverse.1 hc)
        · rcases ih [] t ht' c hc with h | h
          · simp at h
          · exact Or.inr (List.mem_cons_of_mem _ h)
    · rcases ih (a :: cur) t ht c hc with h | h
      · rcases List.mem_cons.1 h with rfl | h'
        · exact Or.inr (List.mem_cons_self _ _)
        · exact Or.inl h'
      · exact Or.inr (List.mem_cons_of_mem _ h)

theorem build_fts_query_eq_nil {query : List Char} (h : ∀ c ∈ query, ¬ pyIsAlnum c = true) :
    build_fts_query query = [] := by
  simp only [build_fts_query]
  have hclean : ∀ c ∈ query.map fun c => if c = '"' || c = '\'' then ' ' else c,
      ¬ pyIsAlnum c = true := by
    intro c hc
    obtain ⟨d, hd, rfl⟩ := List.mem_map.1 hc
    split
    · decide
    · exact h d hd
  have hmap : ((splitPyWs (query.map fun c => if c = '"' || c = '\'' then ' ' else c)).filterMap
      fun t => let t2 := t.filter pyIsAlnum; if t2 = [] then none else some (t2 ++ ['*'])) = [] := by
    rw [List.filterMap_eq_nil_iff]
    intro t ht
    have ht2 : t.filter pyIsAlnum = [] := by
      rw [List.filter_eq_nil_iff]
      intro c hc
      rcases splitPyWsAux_chars _ [] t ht c hc with h' | h'
      · simp at h'
      · exact hclean c h'
    simp [ht2]
  rw [hmap]
  rfl

/-- C7 counterexample: for a negative raw index score (bm25 scores are
ascending-is-better and typically negative) the adapter returns
`1 / (1 + max(rawScore, 0)) = 1`, not the claimed `1 / (1 + rawScore)`:
at `rawScore = -1/2` the claim's formula gives 2. -/
theorem search_fts_formula_counterexample :
    search_fts "hello".toList [(mkTestUnit "a", -(1/2))] = [(mkTestUnit "a", 1)] ∧
    (1 : ℚ) ≠ 1 / (1 + (-(1/2) : ℚ)) := by
  constructor
  · have hb : ¬ build_fts_query "hello".toList = [] := by decide
    rw [search_fts, if_neg hb]
    norm_num
  · norm_num

/-- C7 amended: `search_fts` returns the empty list immediately when no
alphanumeric character survives whitespace/quote stripping (no usable
token), and otherwise assigns each returned row with raw score `rawScore`
the relevance `1 / (1 + max(rawScore, 0))` - the raw score is clamped at 0
before inversion, so higher relevance is better. -/
theorem search_fts_spec (query : List Char) (rows : List (RetrievedUnit × ℚ)) :
    ((∀ c ∈ query, ¬ pyIsAlnum c = true) → search_fts query rows = []) ∧
    (build_fts_query query ≠ [] →
      search_fts query rows = rows.map fun p => (p.1, 1 / (1 + max p.2 0))) := by
  constructor
  · intro h
    rw [search_fts, if_pos (build_fts_query_eq_nil h)]
  · intro h
    rw [search_fts, if_neg h]

/-- C7 witness: a query of pure punctuation returns empty; a usable query
maps a row with raw score 5 to relevance `1/6`. -/
theorem search_fts_spec_witness :
    search_fts "?!".toList [(mkTestUnit "a", 5)] = [] ∧
    search_fts "hi".toList [(mkTestUnit "a", 5)] =
      [(mkTestUnit "a", 5)].map fun p => (p.1, 1 / (1 + max p.2 0)) := by
  constructor
  · exact (search_fts_spec "?!".toList [(mkTestUnit "a", 5)]).1 (by decide)
  · exact (search_fts_spec "hi".toList [(mkTestUnit "a", 5)]).2 (by decide)

theorem foldl_set_score (ranked : List (RetrievedUnit × ℚ)) :
    ∀ (m : ScoreMap) (x : String),
      (ranked.foldl (fun m p => m.set p.1 p.2) m).score x =
        ranked.foldl (fun acc p => if p.1.id = x then p.2 else acc) (m.score x) := by
  induction ranked with
  | nil =>
    intro m x
    rfl
  | cons p rest ih =>
    intro m x
    rw [List.foldl_cons, List.foldl_cons, ih]
    by_cases h : p.1.id = x
    · simp [ScoreMap.set, h]
    · have h' : ¬ x = p.1.id := fun hx => h hx.symm
      simp [ScoreMap.set, h, h']

theorem ScoreMap.ofPairs_score (ranked : List (RetrievedUnit × ℚ)) (x : String) :
    (ScoreMap.ofPairs ranked).score x = dictScoreOfPairs ranked x := by
  unfold ScoreMap.ofPairs dictScoreOfPairs
  rw [foldl_set_score]
  rfl

theorem ScoreMap.ofPairs_idConsistent (ranked : List (RetrievedUnit × ℚ)) :
    (ScoreMap.ofPairs ranked).idConsistent := by
  unfold ScoreMap.ofPairs
  have h : ∀ (m : ScoreMap), m.idConsistent →
      (ranked.foldl (fun m p => m.set p.1 p.2) m).idConsistent := by
    induction ranked with
    | nil => intro m hm; exact hm
    | cons p rest ih =>
      intro m hm
      exact ih _ (ScoreMap.idConsistent_set hm p.1 p.2)
  exact h ScoreMap.empty ScoreMap.idConsistent_empty

theorem mergeRefLoop_score (reference_hits : List RetrievedUnit) :
    ∀ (rank : ℕ) (m : ScoreMap) (x : String),
      (mergeRefLoop rank m reference_hits).score x =
        refFloorFold rank x (m.score x) reference_hits := by
  induction reference_hits with
  | nil =>
    intro rank m x
    rfl
  | cons u rest ih =>
    intro rank m x
    rw [show mergeRefLoop rank m (u :: rest) =
      mergeRefLoop (rank + 1) (m.setMax u (referenceFloorScore rank)) rest from rfl]
    rw [ih, refFloorFold]
    by_cases h : u.id = x
    · simp [ScoreMap.setMax, h]
    · have h' : ¬ x = u.id := fun hx => h hx.symm
      simp [ScoreMap.setMax, h, h']

theorem mergeRefLoop_idConsistent (reference_hits : List RetrievedUnit) :
    ∀ (rank : ℕ) (m : ScoreMap), m.idConsistent →
      (mergeRefLoop rank m reference_hits).idConsistent := by
  induction reference_hits with
  | nil => intro rank m hm; exact hm
  | cons u rest ih =>
    intro rank m hm
    exact ih _ _ (ScoreMap.idConsistent_setMax hm u _)

theorem refFloorFold_le (reference_hits : List RetrievedUnit) :
    ∀ (rank : ℕ) (x : String) (acc : ℚ), acc ≤ refFloorFold rank x acc reference_hits := by
  induction reference_hits with
  | nil =>
    intro rank x acc
    exact le_refl _
  | cons u rest ih =>
    intro rank x acc
    rw [refFloorFold]
    refine le_trans ?_ (ih (rank + 1) x _)
    split
    · exact le_max_left _ _
    · exact le_refl _

/-- C4: `_merge_reference_hits` is a no-op without a structural constraint;
with one, its output is capped at `max(2*topK, 10)` entries sorted
descending by score, and every output entry's score is exactly the
already-discovered aggregate score merged via `max` with the floor score
`0.25 + 1/(30 + rank)` of each lookup hit carrying its id (the closed form
`refFloorFold`), so an already-discovered higher score is never lowered. -/
theorem merge_reference_hits_spec (ranked : List (RetrievedUnit × ℚ)) (qc : QueryContext)
    (reference_hits : List RetrievedUnit) (top_k : ℕ) :
    (qc.has_reference_constraint = false →
      merge_reference_hits ranked qc reference_hits top_k = ranked) ∧
    (qc.has_reference_constraint = true →
      (merge_reference_hits ranked qc reference_hits top_k).length ≤ max (2 * top_k) 10 ∧
      ((merge_reference_hits ranked qc reference_hits top_k).Pairwise fun a b => b.2 ≤ a.2) ∧
      (∀ p ∈ merge_reference_hits ranked qc reference_hits top_k,
        p.2 = refFloorFold 1 p.1.id (dictScoreOfPairs ranked p.1.id) reference_hits ∧
          dictScoreOfPairs ranked p.1.id ≤ p.2)) := by
  constructor
  · intro h
    simp [merge_reference_hits, h]
  · intro h
    have hbody : merge_reference_hits ranked qc reference_hits top_k =
        ((mergeRefLoop 1 (ScoreMap.ofPairs ranked) reference_hits).ranked).take
          (max (2 * top_k) 10) := by
      simp [merge_reference_hits, h]
    have hic : (mergeRefLoop 1 (ScoreMap.ofPairs ranked) reference_hits).idConsistent :=
      mergeRefLoop_idConsistent reference_hits 1 _ (ScoreMap.ofPairs_idConsistent ranked)
    refine ⟨?_, ?_, ?_⟩
    · rw [hbody]
      exact List.length_take_le _ _
    · rw [hbody]
      exact (ScoreMap.ranked_pairwise _).sublist (List.take_sublist _ _)
    · intro p hp
      rw [hbody] at hp
      have hp' := List.take_subset _ _ hp
      obtain ⟨-, hscore⟩ := ScoreMap.mem_ranked_score hic hp'
      rw [hscore, mergeRefLoop_score, ScoreMap.ofPairs_score]
      exact ⟨rfl, refFloorFold_le reference_hits 1 p.1.id _⟩

/-- C4 witness: with a work constraint, an empty aggregate and one lookup
hit, the hit appears with exactly its rank-1 floor score
`0.25 + 1/31 = 35/124`, the cap holds and the floor formula applies. -/
theorem merge_reference_hits_spec_witness :
    (mkTestContext (some "G")).has_reference_constraint = true ∧
    (merge_reference_hits [] (mkTestContext (some "G")) [mkTestUnit "a"] 0).length ≤
      max (2 * 0) 10 ∧
    (mkTestUnit "a", (35 : ℚ)/124) ∈
      merge_reference_hits [] (mkTestContext (some "G")) [mkTestUnit "a"] 0 ∧
    ((35 : ℚ)/124 = refFloorFold 1 "a" (dictScoreOfPairs [] "a") [mkTestUnit "a"] ∧
      dictScoreOfPairs [] "a" ≤ (35 : ℚ)/124) := by
  have hc : (mkTestContext (some "G")).has_reference_constraint = true := by decide
  have hmem : (mkTestUnit "a", (35 : ℚ)/124) ∈
      merge_reference_hits [] (mkTestContext (some "G")) [mkTestUnit "a"] 0 := by
    norm_num +decide [merge_reference_hits, mkTestContext, QueryContext.has_reference_constraint,
      QueryContext.has_prakran_constraint, ScoreMap.ofPairs, mergeRefLoop, ScoreMap.setMax,
      ScoreMap.empty, ScoreMap.insKey, ScoreMap.ranked, List.insertionSort, List.orderedInsert,
      referenceFloorScore, mkTestUnit, defaultRetrievedUnit]
  have h := (merge_reference_hits_spec [] (mkTestContext (some "G")) [mkTestUnit "a"] 0).2 hc
  exact ⟨hc, h.1, hmem, h.2.2 _ hmem⟩

theorem agenticInner_score (results : List RetrievalResult) :
    ∀ (query_weight : ℚ) (rank : ℕ) (m : ScoreMap) (x : String),
      (agenticInner query_weight rank m results).score x =
        m.score x + agenticQueryScore query_weight rank x results := by
  induction results with
  | nil =>
    intro qw rank m x
    simp [agenticInner, agenticQueryScore]
  | cons r rest ih =>
    intro qw rank m x
    rw [show agenticInner qw rank m (r :: rest) =
      agenticInner qw (rank + 1) (m.add r.unit (r.score * qw + 1 / (40 + (rank : ℚ)))) rest
      from rfl]
    rw [ih, agenticQueryScore]
    by_cases h : r.unit.id = x
    · subst h
      simp only [ScoreMap.add]
      rw [if_pos trivial, if_pos trivial]
      ring
    · have h' : ¬ x = r.unit.id := fun hx => h hx.symm
      simp only [ScoreMap.add, if_neg h', if_neg h, zero_add]

theorem agenticInner_idConsistent (results : List RetrievalResult) :
    ∀ (query_weight : ℚ) (rank : ℕ) (m : ScoreMap), m.idConsistent →
      (agenticInner query_weight rank m results).idConsistent := by
  induction results with
  | nil => intro _ _ m hm; exact hm
  | cons r rest ih =>
    intro qw rank m hm
    exact ih qw (rank + 1) _ (ScoreMap.idConsistent_add hm r.unit _)

theorem agenticOuter_score (queries : List String) :
    ∀ (search : String → ℕ → List RetrievalResult) (per_query_limit query_idx : ℕ)
      (m : ScoreMap) (x : String),
      (agenticOuter search per_query_limit query_idx m queries).score x =
        m.score x + agenticTotalScore search per_query_limit query_idx x queries := by
  induction queries with
  | nil =>
    intro search lim idx m x
    simp [agenticOuter, agenticTotalScore]
  | cons q rest ih =>
    intro search lim idx m x
    rw [show agenticOuter search lim idx m (q :: rest) =
      agenticOuter search lim (idx + 1)
        (agenticInner (1 / (1 + (idx : ℚ) * (7 / 20))) 1 m (search q lim)) rest from rfl]
    rw [ih, agenticInner_score, agenticTotalScore]
    ring

theorem agenticOuter_idConsistent (queries : List String) :
    ∀ (search : String → ℕ → List RetrievalResult) (per_query_limit query_idx : ℕ)
      (m : ScoreMap), m.idConsistent →
      (agenticOuter search per_query_limit query_idx m queries).idConsistent := by
  induction queries with
  | nil => intro _ _ _ m hm; exact hm
  | cons q rest ih =>
    intro search lim idx m hm
    exact ih search lim (idx + 1) _ (agenticInner_idConsistent _ _ _ _ hm)

/-- C8: `_agentic_retrieve` searches every sub-query with per-query limit
`max(2*topK, 8)`; a hit at 1-based rank `r` within the query at 0-based
index `i` contributes `hitScore/(1 + 0.35*i) + 1/(40 + r)`; contributions
are summed across sub-queries (the closed form `agenticTotalScore`); the
output is at most `max(topK, 4)` units, sorted descending by accumulated
score, and every entry it drops scores no higher than any entry it
keeps. -/
theorem agentic_retrieve_spec (search : String → ℕ → List RetrievalResult)
    (queries : List String) (top_k : ℕ) :
    (agentic_retrieve search queries top_k).length ≤ max top_k 4 ∧
    ((agentic_retrieve search queries top_k).Pairwise fun a b => b.2 ≤ a.2) ∧
    (∀ p ∈ agentic_retrieve search queries top_k,
      p.2 = agenticTotalScore search (max (2 * top_k) 8) 0 p.1.id queries) ∧
    (∀ p ∈ agentic_retrieve search queries top_k,
      ∀ q ∈ ((agenticOuter search (max (2 * top_k) 8) 0 ScoreMap.empty queries).ranked).drop
        (max top_k 4), q.2 ≤ p.2) := by
  have hbody : agentic_retrieve search queries top_k =
      ((agenticOuter search (max (2 * top_k) 8) 0 ScoreMap.empty queries).ranked).take
        (max top_k 4) := rfl
  have hic : (agenticOuter search (max (2 * top_k) 8) 0 ScoreMap.empty queries).idConsistent :=
    agenticOuter_idConsistent queries search _ 0 _ ScoreMap.idConsistent_empty
  refine ⟨?_, ?_, ?_, ?_⟩
  · rw [hbody]
    exact List.length_take_le _ _
  · rw [hbody]
    exact (ScoreMap.ranked_pairwise _).sublist (List.take_sublist _ _)
  · intro p hp
    rw [hbody] at hp
    obtain ⟨-, hscore⟩ := ScoreMap.mem_ranked_score hic (List.take_subset _ _ hp)
    rw [hscore, agenticOuter_score]
    simp [ScoreMap.empty]
  · intro p hp q hq
    rw [hbody] at hp
    have hpw := ScoreMap.ranked_pairwise
      (agenticOuter search (max (2 * top_k) 8) 0 ScoreMap.empty queries)
    rw [← List.take_append_drop (max top_k 4)
      ((agenticOuter search (max (2 * top_k) 8) 0 ScoreMap.empty queries).ranked)] at hpw
    exact (List.pairwise_append.1 hpw).2.2 p hp q hq

/-- C8 witness: one query, a search oracle returning a single unit with
score 1, `topK = 0`: the sole output entry carries `1*1 + 1/41 = 42/41`,
matching the closed-form accumulator. -/
theorem agentic_retrieve_spec_witness :
    (agentic_retrieve (fun _ _ => [{ unit := mkTestUnit "a", score := 1 }]) ["x"] 0).length ≤
      max 0 4 ∧
    (mkTestUnit "a", (42 : ℚ)/41) ∈
      agentic_retrieve (fun _ _ => [{ unit := mkTestUnit "a", score := 1 }]) ["x"] 0 ∧
    (42 : ℚ)/41 =
      agenticTotalScore (fun _ _ => [{ unit := mkTestUnit "a", score := 1 }])
        (max (2 * 0) 8) 0 "a" ["x"] := by
  have hmem : (mkTestUnit "a", (42 : ℚ)/41) ∈
      agentic_retrieve (fun _ _ => [{ unit := mkTestUnit "a", score := 1 }]) ["x"] 0 := by
    norm_num +decide [agentic_retrieve, agenticOuter, agenticInner, ScoreMap.add,
      ScoreMap.empty, ScoreMap.insKey, ScoreMap.ranked, List.insertionSort,
      List.orderedInsert, mkTestUnit, defaultRetrievedUnit]
  have h := agentic_retrieve_spec (fun _ _ => [{ unit := mkTestUnit "a", score := 1 }]) ["x"] 0
  have hs := h.2.2.1 _ hmem
  exact ⟨h.1, hmem, hs⟩

theorem countFirstMatch_append (requested : List ℕ) (l1 l2 : List (RetrievedUnit × ℚ)) (n : ℕ) :
    countFirstMatch requested (l1 ++ l2) n =
      countFirstMatch requested l1 n + countFirstMatch requested l2 n := by
  simp [countFirstMatch, List.filter_append]

theorem countFirstMatch_singleton (requested : List ℕ) (p : RetrievedUnit × ℚ) (n : ℕ) :
    countFirstMatch requested [p] n =
      if firstMatchedPrakran requested p.1 = some n then 1 else 0 := by
  simp only [countFirstMatch, List.filter_singleton]
  by_cases h : firstMatchedPrakran requested p.1 = some n
  · simp [h]
  · simp [h]

theorem countFirstMatch_take_le (requested : List ℕ) (l : List (RetrievedUnit × ℚ))
    (k n : ℕ) : countFirstMatch requested (l.take k) n ≤ countFirstMatch requested l n :=
  List.Sublist.length_le (List.Sublist.filter _ (List.take_sublist k l))

/-- Invariants of the diversification loop: whenever the running per-number
counters agree with the first-match counts of the primary list and are
bounded by 2, the loop's primary output (early return or loop end) admits
at most 2 entries per requested section number, respects the cap on early
return, and both output lists draw only from the inputs. -/
theorem diversifyLoop_props (requested : List ℕ) (max_items : ℕ) :
    ∀ (pairs : List (RetrievedUnit × ℚ)) (counts : ℕ → ℕ) (div ovf : List (RetrievedUnit × ℚ)),
      (∀ n, countFirstMatch requested div n = counts n) →
      (∀ n, counts n ≤ 2) →
      (∀ res, diversifyLoop requested max_items counts div ovf pairs = Sum.inl res →
        res.length ≤ max_items ∧ (∀ n, countFirstMatch requested res n ≤ 2) ∧
          ∀ p ∈ res, p ∈ div ∨ p ∈ pairs) ∧
      (∀ d o, diversifyLoop requested max_items counts div ovf pairs = Sum.inr (d, o) →
        (∀ n, countFirstMatch requested d n ≤ 2) ∧
          (∀ p ∈ d, p ∈ div ∨ p ∈ pairs) ∧ (∀ p ∈ o, p ∈ ovf ∨ p ∈ pairs)) := by
  intro pairs
  induction pairs with
  | nil =>
    intro counts div ovf hinv hb
    constructor
    · intro res h
      rw [diversifyLoop] at h
      exact absurd h (by simp)
    · intro d o h
      rw [diversifyLoop] at h
      simp only [Sum.inr.injEq, Prod.mk.injEq] at h
      obtain ⟨rfl, rfl⟩ := h
      exact ⟨fun n => (hinv n).le.trans (hb n), fun p hp => Or.inl hp, fun p hp => Or.inl hp⟩
  | cons q rest ih =>
    intro counts div ovf hinv hb
    rcases hfm : firstMatchedPrakran requested q.1 with _ | n0
    · have hstep : diversifyLoop requested max_items counts div ovf (q :: rest) =
          diversifyLoop requested max_items counts div (ovf ++ [q]) rest := by
        rw [diversifyLoop, hfm]
      obtain ⟨ih1, ih2⟩ := ih counts div (ovf ++ [q]) hinv hb
      constructor
      · intro res h
        rw [hstep] at h
        obtain ⟨hl, hc, hm⟩ := ih1 res h
        refine ⟨hl, hc, fun p hp => ?_⟩
        rcases hm p hp with h' | h'
        · exact Or.inl h'
        · exact Or.inr (List.mem_cons_of_mem _ h')
      · intro d o h
        rw [hstep] at h
        obtain ⟨hc, hm, ho⟩ := ih2 d o h
        refine ⟨hc, fun p hp => ?_, fun p hp => ?_⟩
        · rcases hm p hp with h' | h'
          · exact Or.inl h'
          · exact Or.inr (List.mem_cons_of_mem _ h')
        · rcases ho p hp with h' | h'
          · rcases List.mem_append.1 h' with h'' | h''
            · exact Or.inl h''
            · simp only [List.mem_singleton] at h''
              exact Or.inr (h'' ▸ List.mem_cons_self _ _)
          · exact Or.inr (List.mem_cons_of_mem _ h')
    · have hcount2 : ∀ n, countFirstMatch requested (div ++ [q]) n =
          countFirstMatch requested div n + if n0 = n then 1 else 0 := by
        intro n
        rw [countFirstMatch_append, countFirstMatch_singleton, hfm]
        simp
      by_cases hcnt : counts n0 < 2
      · have hstep : diversifyLoop requested max_items counts div ovf (q :: rest) =
            if max_items ≤ (div ++ [q]).length then Sum.inl ((div ++ [q]).take max_items)
            else diversifyLoop requested max_items
              (fun m => if m = n0 then counts n0 + 1 else counts m) (div ++ [q]) ovf rest := by
          rw [diversifyLoop, hfm]
          simp [hcnt]
        have hinv2 : ∀ n, countFirstMatch requested (div ++ [q]) n =
            (fun m => if m = n0 then counts n0 + 1 else counts m) n := by
          intro n
          rw [hcount2 n, hinv n]
          by_cases h : n = n0
          · subst h
            simp
          · have h' : ¬ n0 = n := fun hx => h hx.symm
            simp [h, h']
        have hb2 : ∀ n, (fun m => if m = n0 then counts n0 + 1 else counts m) n ≤ 2 := by
          intro n
          show (if n = n0 then counts n0 + 1 else counts n) ≤ 2
          by_cases h : n = n0
          · rw [if_pos h]
            omega
          · rw [if_neg h]
            exact hb n
        have hcap : ∀ n, countFirstMatch requested ((div ++ [q]).take max_items) n ≤ 2 := by
          intro n
          exact (countFirstMatch_take_le _ _ _ _).trans (by rw [hinv2 n]; exact hb2 n)
        constructor
        · intro res h
          rw [hstep] at h
          split at h
          · simp only [Sum.inl.injEq] at h
            subst h
            refine ⟨List.length_take_le _ _, hcap, fun p hp => ?_⟩
            rcases List.mem_append.1 (List.take_subset _ _ hp) with h' | h'
            · exact Or.inl h'
            · simp only [List.mem_singleton] at h'
              exact Or.inr (h' ▸ List.mem_cons_self _ _)
          · obtain ⟨hl, hc, hm⟩ := (ih _ (div ++ [q]) ovf hinv2 hb2).1 res h
            refine ⟨hl, hc, fun p hp => ?_⟩
            rcases hm p hp with h' | h'
            · rcases List.mem_append.1 h' with h'' | h''
              · exact Or.inl h''
              · simp only [List.mem_singleton] at h''
                exact Or.inr (h'' ▸ List.mem_cons_self _ _)
            · exact Or.inr (List.mem_cons_of_mem _ h')
        · intro d o h
          rw [hstep] at h
          split at h
          · exact absurd h (by simp)
          · obtain ⟨hc, hm, ho⟩ := (ih _ (div ++ [q]) ovf hinv2 hb2).2 d o h
            refine ⟨hc, fun p hp => ?_, fun p hp => ?_⟩
            · rcases hm p hp with h' | h'
              · rcases List.mem_append.1 h' with h'' | h''
                · exact Or.inl h''
                · simp only [List.mem_singleton] at h''
                  exact Or.inr (h'' ▸ List.mem_cons_self _ _)
              · exact Or.inr (List.mem_cons_of_mem _ h')
            · rcases ho p hp with h' | h'
              · exact Or.inl h'
              · exact Or.inr (List.mem_cons_of_mem _ h')
      · have hstep : diversifyLoop requested max_items counts div ovf (q :: rest) =
            if max_items ≤ div.length then Sum.inl (div.take max_items)
            else diversifyLoop requested max_items counts div (ovf ++ [q]) rest := by
          rw [diversifyLoop, hfm]
          simp [hcnt]
        constructor
        · intro res h
          rw [hstep] at h
          split at h
          · simp only [Sum.inl.injEq] at h
            subst h
            refine ⟨List.length_take_le _ _, fun n => ?_, fun p hp => Or.inl (List.take_subset _ _ hp)⟩
            exact (countFirstMatch_take_le _ _ _ _).trans (by rw [hinv n]; exact hb n)
          · obtain ⟨hl, hc, hm⟩ := (ih counts div (ovf ++ [q]) hinv hb).1 res h
            refine ⟨hl, hc, fun p hp => ?_⟩
            rcases hm p hp with h' | h'
            · exact Or.inl h'
            · exact Or.inr (List.mem_cons_of_mem _ h')
        · intro d o h
          rw [hstep] at h
          split at h
          · exact absurd h (by simp)
          · obtain ⟨hc, hm, ho⟩ := (ih counts div (ovf ++ [q]) hinv hb).2 d o h
            refine ⟨hc, fun p hp => ?_, fun p hp => ?_⟩
            · rcases hm p hp with h' | h'
              · exact Or.inl h'
              · exact Or.inr (List.mem_cons_of_mem _ h')
            · rcases ho p hp with h' | h'
              · rcases List.mem_append.1 h' with h'' | h''
                · exact Or.inl h''
                · simp only [List.mem_singleton] at h''
                  exact Or.inr (h'' ▸ List.mem_cons_self _ _)
              · exact Or.inr (List.mem_cons_of_mem _ h')

theorem fillFromOverflow_mem (max_items : ℕ) :
    ∀ (ovf div : List (RetrievedUnit × ℚ)) (p : RetrievedUnit × ℚ),
      p ∈ fillFromOverflow max_items div ovf → p ∈ div ∨ p ∈ ovf := by
  intro ovf
  induction ovf with
  | nil =>
    intro div p hp
    exact Or.inl hp
  | cons o rest ih =>
    intro div p hp
    rw [fillFromOverflow] at hp
    split at hp
    · rcases List.mem_append.1 hp with h | h
      · exact Or.inl h
      · simp only [List.mem_singleton] at h
        exact Or.inr (h ▸ List.mem_cons_self _ _)
    · rcases ih (div ++ [o]) p hp with h | h
      · rcases List.mem_append.1 h with h' | h'
        · exact Or.inl h'
        · simp only [List.mem_singleton] at h'
          exact Or.inr (h' ▸ List.mem_cons_self _ _)
      · exact Or.inr (List.mem_cons_of_mem _ h)

theorem prakran_numbers_length (q : QueryContext) (max_span : ℕ) :
    (q.prakran_numbers max_span).length ≤ max_span + 1 := by
  unfold QueryContext.prakran_numbers
  split
  · simp
  · split
    · next s e _ _ =>
      simp only [List.length_map, List.length_range]
      split
      · omega
      · omega
    · simp

/-- The output of `_diversify_reference_results` only contains input
candidates. -/
theorem diversify_reference_results_mem (ranked_pairs : List (RetrievedUnit × ℚ))
    (qc : QueryContext) (max_items : ℕ) :
    ∀ p ∈ diversify_reference_results ranked_pairs qc max_items, p ∈ ranked_pairs := by
  intro p hp
  unfold diversify_reference_results at hp
  split at hp
  · simp at hp
  · have hsorted : ∀ x ∈ pySortDesc ranked_pairs, x ∈ ranked_pairs := fun x hx =>
      (pySortDesc_perm ranked_pairs).mem_iff.1 hx
    dsimp only at hp
    split at hp
    · exact hsorted p (List.take_subset _ _ hp)
    · split at hp
      · exact hsorted p (List.take_subset _ _ hp)
      · have props := diversifyLoop_props (qc.prakran_numbers 24) max_items
          (pySortDesc ranked_pairs) (fun _ => 0) [] [] (fun n => rfl) (fun n => Nat.zero_le 2)
        split at hp
        · next res hloop =>
          rcases (props.1 res hloop).2.2 p hp with h | h
          · simp at h
          · exact hsorted p h
        · next d o hloop =>
          have hdo := props.2 d o hloop
          rcases fillFromOverflow_mem max_items o d p (List.take_subset _ _ hp) with h | h
          · rcases hdo.2.1 p h with h' | h'
            · simp at h'
            · exact hsorted p h'
          · rcases hdo.2.2 p h with h' | h'
            · simp at h'
            · exact hsorted p h'

/-- C9: for a range query, `_diversify_reference_results` sorts candidates
descending, expands the range to at most 24+1 distinct numbers, and its
assembly loop admits at most 2 candidates per requested section number
(counted against the first requested number each unit matches) into the
primary result; on early return (cap reached) the result is the capped
primary list, otherwise the overflow list fills the remaining slots; the
output never exceeds the requested cap. -/
theorem diversify_reference_results_spec (ranked_pairs : List (RetrievedUnit × ℚ))
    (qc : QueryContext) (max_items : ℕ)
    (hs : qc.prakran_range_start.isSome = true) (he : qc.prakran_range_end.isSome = true)
    (hreq : qc.prakran_numbers 24 ≠ []) :
    (diversify_reference_results ranked_pairs qc max_items).length ≤ max_items ∧
    (qc.prakran_numbers 24).length ≤ 24 + 1 ∧
    (∀ res, diversifyLoop (qc.prakran_numbers 24) max_items (fun _ => 0) [] []
        (pySortDesc ranked_pairs) = Sum.inl res →
      diversify_reference_results ranked_pairs qc max_items = res ∧
        ∀ n, countFirstMatch (qc.prakran_numbers 24) res n ≤ 2) ∧
    (∀ d o, diversifyLoop (qc.prakran_numbers 24) max_items (fun _ => 0) [] []
        (pySortDesc ranked_pairs) = Sum.inr (d, o) →
      diversify_reference_results ranked_pairs qc max_items =
          (fillFromOverflow max_items d o).take max_items ∧
        ∀ n, countFirstMatch (qc.prakran_numbers 24) d n ≤ 2) := by
  have props := diversifyLoop_props (qc.prakran_numbers 24) max_items
    (pySortDesc ranked_pairs) (fun _ => 0) [] [] (fun n => rfl) (fun n => Nat.zero_le 2)
  by_cases hempty : ranked_pairs = []
  · subst hempty
    have hloop : diversifyLoop (qc.prakran_numbers 24) max_items (fun _ => 0) [] []
        (pySortDesc []) = Sum.inr ([], []) := rfl
    refine ⟨by simp [diversify_reference_results], prakran_numbers_length qc 24, ?_, ?_⟩
    · intro res h
      rw [hloop] at h
      exact absurd h (by simp)
    · intro d o h
      rw [hloop] at h
      simp only [Sum.inr.injEq, Prod.mk.injEq] at h
      obtain ⟨rfl, rfl⟩ := h
      exact ⟨by simp [diversify_reference_results, fillFromOverflow], fun n => Nat.zero_le 2⟩
  · obtain ⟨s0, hs0⟩ := Option.isSome_iff_exists.1 hs
    obtain ⟨e0, he0⟩ := Option.isSome_iff_exists.1 he
    have hd : diversify_reference_results ranked_pairs qc max_items =
        match diversifyLoop (qc.prakran_numbers 24) max_items (fun _ => 0) [] []
          (pySortDesc ranked_pairs) with
        | Sum.inl res => res
        | Sum.inr (d, o) => (fillFromOverflow max_items d o).take max_items := by
      unfold diversify_reference_results
      rw [if_neg hempty]
      dsimp only
      rw [if_neg (by simp [hs0, he0]), if_neg hreq]
    refine ⟨?_, prakran_numbers_length qc 24, ?_, ?_⟩
    · rw [hd]
      rcases hloop : diversifyLoop (qc.prakran_numbers 24) max_items (fun _ => 0) [] []
        (pySortDesc ranked_pairs) with res | ⟨d, o⟩
      · exact (props.1 res hloop).1
      · exact List.length_take_le _ _
    · intro res h
      rw [hd, h]
      exact ⟨rfl, (props.1 res h).2.1⟩
    · intro d o h
      rw [hd, h]
      exact ⟨rfl, (props.2 d o h).1⟩

/-- C9 witness: a 3-section range (1 to 3) with three candidates per
section and cap 6: assembly stops at the cap with exactly the two
top-scored candidates of each requested section; at most 2 per section
number. -/
theorem diversify_reference_results_spec_witness :
    (mkTestContext none none (some 1) (some 3) none).prakran_range_start.isSome = true ∧
    diversify_reference_results diversifyWitnessUnits
        (mkTestContext none none (some 1) (some 3) none) 6 = diversifyWitnessPrimary ∧
    countFirstMatch ((mkTestContext none none (some 1) (some 3) none).prakran_numbers 24)
        diversifyWitnessPrimary 1 ≤ 2 ∧
    countFirstMatch ((mkTestContext none none (some 1) (some 3) none).prakran_numbers 24)
        diversifyWitnessPrimary 2 ≤ 2 ∧
    countFirstMatch ((mkTestContext none none (some 1) (some 3) none).prakran_numbers 24)
        diversifyWitnessPrimary 3 ≤ 2 := by
  have hloop : diversifyLoop
      ((mkTestContext none none (some 1) (some 3) none).prakran_numbers 24) 6 (fun _ => 0) [] []
      (pySortDesc diversifyWitnessUnits) = Sum.inl diversifyWitnessPrimary := by
    decide
  have h := (diversify_reference_results_spec diversifyWitnessUnits
    (mkTestContext none none (some 1) (some 3) none) 6 rfl rfl (by decide)).2.2.1
    diversifyWitnessPrimary hloop
  exact ⟨rfl, h.1, h.2 1, h.2 2, h.2 3⟩

theorem apply_ambiguity_guard_mem {qc : QueryContext} {l : List (RetrievedUnit × ℚ)}
    {p : RetrievedUnit × ℚ} (hp : p ∈ apply_ambiguity_guard qc l) : p ∈ l := by
  unfold apply_ambiguity_guard at hp
  split at hp
  · simp at hp
  · exact hp

/-- C10: every candidate surviving the grounding portion of `respond`
(reference merge, constraint filter, minimum-grounding-score cut,
diversification, ambiguity guard) scores at least the configured minimum
grounding score, and the reference-merge floor scores always clear the
default threshold `0.015`. -/
theorem respond_grounding_pipeline_min_score (settings : Settings)
    (aggregated : List (RetrievedUnit × ℚ)) (qc : QueryContext)
    (reference_hits : List RetrievedUnit) (top_k : ℕ) :
    (∀ p ∈ respond_grounding_pipeline settings aggregated qc reference_hits top_k,
      settings.minimum_grounding_score ≤ p.2) ∧
    (∀ rank : ℕ, defaultSettings.minimum_grounding_score ≤ referenceFloorScore rank) := by
  constructor
  · intro p hp
    unfold respond_grounding_pipeline at hp
    dsimp only at hp
    have h1 := apply_ambiguity_guard_mem hp
    have h2 := diversify_reference_results_mem _ _ _ p h1
    exact of_decide_eq_true (List.mem_filter.1 h2).2
  · intro rank
    show (3 : ℚ)/200 ≤ 1 / 4 + 1 / (30 + (rank : ℚ))
    have h : (0 : ℚ) ≤ 1 / (30 + (rank : ℚ)) := by positivity
    linarith

/-- C10 witness: an unconstrained request with one aggregated candidate of
score 1 survives the pipeline, its score clears the default threshold, and
the rank-1 reference floor clears it too. -/
theorem respond_grounding_pipeline_min_score_witness :
    (mkTestUnit "a", (1 : ℚ)) ∈
      respond_grounding_pipeline defaultSettings [(mkTestUnit "a", 1)] (mkTestContext)
        [] 0 ∧
    defaultSettings.minimum_grounding_score ≤ (1 : ℚ) ∧
    defaultSettings.minimum_grounding_score ≤ referenceFloorScore 1 := by
  have hmem : (mkTestUnit "a", (1 : ℚ)) ∈
      respond_grounding_pipeline defaultSettings [(mkTestUnit "a", 1)] (mkTestContext) [] 0 := by
    norm_num +decide [respond_grounding_pipeline, merge_reference_hits, apply_query_constraints,
      diversify_reference_results, pySortDesc, List.insertionSort, List.orderedInsert,
      apply_ambiguity_guard, is_ambiguous_reference, defaultSettings, mkTestContext,
      QueryContext.has_reference_constraint, QueryContext.has_prakran_constraint, mkTestUnit,
      defaultRetrievedUnit]
  have h := respond_grounding_pipeline_min_score defaultSettings [(mkTestUnit "a", 1)]
    (mkTestContext) [] 0
  exact ⟨hmem, h.1 _ hmem, h.2 1⟩

/-- C3 counterexample: `unit_matches_prakran` never consults the structured
`prakran_number` field.  A unit whose structured field is 5 but whose
prakran name is `x` and whose texts are empty does not match section 5,
contradicting the claim's "returns true whenever prakran_number equals N". -/
theorem unit_matches_prakran_field_counterexample :
    (mkTestUnit "u" "G" "x" "" (some 5)).prakran_number = some 5 ∧
    unit_matches_prakran (mkTestUnit "u" "G" "x" "" (some 5)) 5 = false := by
  exact ⟨rfl, by decide⟩

theorem prakranCandidateText_ne_nil (unit : RetrievedUnit) :
    prakranCandidateText unit ≠ [] := by
  intro h
  have hlen := congrArg List.length h
  simp [prakranCandidateText, lowerL] at hlen

/-- C3 amended: the structured `prakran_number` field is never consulted
(replacing it never changes the outcome); `unit_matches_prakran(unit, N)`
is true exactly when the trimmed lowercased prakran name matches the exact
keyword pattern `prakran <1-3 digits>` with value `N`, or no such name
pattern exists and the bounded text prefix contains a boundary-safe or
hyphen/parenthesis-delimited occurrence of `N`.  In particular it is true
whenever the name pattern yields `N`, and false whenever the text has no
such occurrence and the name pattern's value (if any) differs from `N`. -/
theorem unit_matches_prakran_spec (unit : RetrievedUnit) (n : ℕ) :
    (∀ k : Option ℤ,
      unit_matches_prakran { unit with prakran_number := k } n = unit_matches_prakran unit n) ∧
    (unit_matches_prakran unit n = true ↔
      (explicitPrakranNameNumber (lowerL (stripL unit.prakran_name.toList)) = some n ∨
        (explicitPrakranNameNumber (lowerL (stripL unit.prakran_name.toList)) = none ∧
          boundarySafeTextMatch unit n = true))) := by
  have heq : unit_matches_prakran unit n =
      match explicitPrakranNameNumber (lowerL (stripL unit.prakran_name.toList)) with
      | some m => decide (m = n)
      | none =>
        if prakranCandidateText unit = [] then false else boundarySafeTextMatch unit n := rfl
  constructor
  · intro k
    rfl
  · rw [heq]
    rcases h : explicitPrakranNameNumber (lowerL (stripL unit.prakran_name.toList)) with _ | m
    · simp only [h]
      rw [if_neg (prakranCandidateText_ne_nil unit)]
      constructor
      · intro ht
        exact Or.inr ⟨by trivial, ht⟩
      · rintro (hc | ⟨-, ht⟩)
        · exact absurd hc (by simp)
        · exact ht
    · simp only [h]
      constructor
      · intro ht
        have hm : m = n := of_decide_eq_true ht
        exact Or.inl (by rw [hm])
      · rintro (hc | ⟨hc, -⟩)
        · exact decide_eq_true (Option.some.inj hc)
        · exact absurd hc (by simp)

/-- C1 counterexample: carry-forward can produce BOTH forms.  With prior
state `{prakran_number := 5, prakran_range := (1, 3)}` (reachable, since
`next_session_context` merges field-wise) and the message `prakran usme`
(section keyword + follow-up cue, no digits), the parser inherits the
single section number AND the full range. -/
theorem parse_query_context_both_forms_counterexample :
    (parse_query_context id "prakran usme" []
        ⟨none, some 5, some 1, some 3, none⟩ none none).prakran_number = some 5 ∧
    (parse_query_context id "prakran usme" []
        ⟨none, some 5, some 1, some 3, none⟩ none none).prakran_range_start = some 1 ∧
    (parse_query_context id "prakran usme" []
        ⟨none, some 5, some 1, some 3, none⟩ none none).prakran_range_end = some 3 := by
  refine ⟨by decide, by decide, by decide⟩

/-- C1 amended: the exclusivity invariant holds whenever the prior session
state does not itself carry a complete section range: then the returned
`QueryContext` never has `prakran_number` and both range fields non-null.
(When the prior state carries a complete range, a message that mentions
sections together with a follow-up cue inherits the range independently of
the section number, violating the invariant - see the counterexample.) -/
theorem parse_query_context_exclusive_forms (nfkc : List Char → List Char) (message : String)
    (granths : List String) (prior : SessionContextState) (fg fp : Option String)
    (h : prior.prakran_range_start = none ∨ prior.prakran_range_end = none) :
    ¬ ((parse_query_context nfkc message granths prior fg fp).prakran_number ≠ none ∧
      (parse_query_context nfkc message granths prior fg fp).prakran_range_start ≠ none ∧
      (parse_query_context nfkc message granths prior fg fp).prakran_range_end ≠ none) := by
  rintro ⟨hA, hB, hC⟩
  rcases hr : extract_prakran_range (lowerL (pyNormalize nfkc message.toList)) with _ | r
  · apply hB
    simp only [parse_query_context, hr]
    rcases h with h1 | h1 <;> simp [h1]
  · apply hA
    simp only [parse_query_context, hr]
    simp

/-- C1 witness: with an empty prior state the invariant holds for a plain
section request. -/
theorem parse_query_context_exclusive_forms_witness :
    (⟨none, none, none, none, none⟩ : SessionContextState).prakran_range_start = none ∧
    ¬ ((parse_query_context id "prakran 5" [] ⟨none, none, none, none, none⟩
          none none).prakran_number ≠ none ∧
      (parse_query_context id "prakran 5" [] ⟨none, none, none, none, none⟩
          none none).prakran_range_start ≠ none ∧
      (parse_query_context id "prakran 5" [] ⟨none, none, none, none, none⟩
          none none).prakran_range_end ≠ none) :=
  ⟨rfl, parse_query_context_exclusive_forms id "prakran 5" []
    ⟨none, none, none, none, none⟩ none none (Or.inl rfl)⟩
